import Mathlib

/-!
Verification of the "great escape" bot (`src/bot/great-escape.py`): a
Quoridor-style board model with a BFS shortest-path search, a blocking-wall
heuristic, and per-turn decision logic.  Cells are identified by their
integer coordinates `(x, y)`; the board's grid of `Cell` objects is embedded
as the pair of functions `is_wall` / `occupants` indexed by coordinates
(cells are created once and identified by coordinates, so Python's
object-identity dictionary keys coincide with coordinate keys).
-/

/-- A cell coordinate `(x, y)`. -/
abbrev Coord := Int × Int

/-- The `Player` record: id, position, walls left, and the goal condition
(exactly one of `x_goal`, `y_goal` is defined for players built by
`Board.init`; `none` embeds Python's `None`). -/
structure Player where
  id : Nat
  x : Int
  y : Int
  walls_left : Int
  x_goal : Option Int
  y_goal : Option Int
deriving DecidableEq, Repr

/-- The board: dimensions, wall flags, occupant lists (player ids, in
insertion order, mirroring `Cell.players`), and the player roster. -/
structure Board where
  width : Int
  height : Int
  is_wall : Int → Int → Bool
  occupants : Int → Int → List Nat
  players : List Player

/-- The four goal assignments from `Board.__init__`:
`[(width-1, None), (0, None), (None, height-1), (None, 0)]`. -/
def goalsList (width height : Int) : List (Option Int × Option Int) :=
  [(some (width - 1), none), (some 0, none), (none, some (height - 1)), (none, some 0)]

/-- Embedding of `Board.__init__`: players `0 .. nb_player-1` are created at `(0, 0)` with
`walls_left = 0` and the goal pair `goals[i]`; the map starts with no walls
and no occupants. -/
def Board.init (width height : Int) (nb_player : Nat) : Board :=
  Board.mk width height (fun _ _ => false) (fun _ _ => [])
    ((List.range nb_player).map (fun i =>
      Player.mk i 0 0 0 ((goalsList width height).getD i (none, none)).1
        ((goalsList width height).getD i (none, none)).2))

/-- Embedding of `Cell.compare`: direction from `self` (the first argument) to `cell`
(the second argument); x is compared first, then y, with `"UP"` as the
final fallback. -/
def cellCompare (self cell : Coord) : String :=
  if cell.1 > self.1 then "RIGHT"
  else if cell.1 < self.1 then "LEFT"
  else if cell.2 > self.2 then "DOWN"
  else "UP"

/-- Embedding of `Cell.is_free`: no wall and no occupying player. -/
def is_free (b : Board) (c : Coord) : Bool :=
  !(b.is_wall c.1 c.2 || !(b.occupants c.1 c.2).isEmpty)

/-- Embedding of `Board.update_player`: remove the player's id from its current cell's
occupant list if present (first occurrence, as Python `list.remove`),
overwrite the player record, append the id to the new cell's list.
Python raises for an out-of-range id; that case is embedded as the
unchanged board (no claim exercises it). -/
def Board.update_player (b : Board) (id : Nat) (x y walls_left : Int) : Board :=
  match b.players.get? id with
  | none => b
  | some pl =>
    let occ1 : Int → Int → List Nat := fun a c =>
      if a = pl.x ∧ c = pl.y then (b.occupants pl.x pl.y).erase id else b.occupants a c
    let occ2 : Int → Int → List Nat := fun a c =>
      if a = x ∧ c = y then occ1 a c ++ [id] else occ1 a c
    Board.mk b.width b.height b.is_wall occ2
      (b.players.set id (Player.mk pl.id x y walls_left pl.x_goal pl.y_goal))

/-- Embedding of `Board.add_wall`: mark `(x, y)` as a wall, plus `(x, y+1)` when the
orientation is `"V"` and `y+1 < height`, plus `(x+1, y)` when it is `"H"`
and `x+1 < width`. -/
def Board.add_wall (b : Board) (x y : Int) (o : String) : Board :=
  Board.mk b.width b.height
    (fun a c =>
      if (a = x ∧ c = y) ∨ (o = "V" ∧ y + 1 < b.height ∧ a = x ∧ c = y + 1) ∨
          (o = "H" ∧ x + 1 < b.width ∧ a = x + 1 ∧ c = y) then true
      else b.is_wall a c)
    b.occupants b.players

/-- Embedding of `Board._cell_exist`: the coordinate is inside the grid. -/
def Board.cell_exist (b : Board) (x y : Int) : Bool :=
  decide (0 ≤ x) && decide (x < b.width) && decide (0 ≤ y) && decide (y < b.height)

/-- Embedding of `Board._cell_neighbours`: the four direction offsets
`[(1,0), (0,1), (-1,0), (0,-1)]` in order; a candidate is kept when the
cell exists and (since a neighbour is only appended under `not wall`)
`wall` is `false` and the cell is not a wall. -/
def Board.cell_neighbours (b : Board) (c : Coord) (wall : Bool) : List Coord :=
  [(c.1 + 1, c.2), (c.1, c.2 + 1), (c.1 - 1, c.2), (c.1, c.2 - 1)].filter
    (fun n => b.cell_exist n.1 n.2 && (!wall && !b.is_wall n.1 n.2))

/-- Association-list lookup for the `found_cells` dictionary of the search
(keys are cells, values are predecessor cells or `none` for the root). -/
def lookA : List (Coord × Option Coord) → Coord → Option (Option Coord)
  | [], _ => none
  | (k, v) :: t, c => if k = c then some v else lookA t c

/-- Key membership in the `found_cells` dictionary. -/
def containsK (found : List (Coord × Option Coord)) (c : Coord) : Bool :=
  (lookA found c).isSome

/-- The path-reconstruction loop of `find_shortest_path`: follow
predecessors while the current cell maps to a (truthy) predecessor.
`fuel` bounds the walk; `found.length` always suffices. -/
def backtrack (found : List (Coord × Option Coord)) : Nat → Coord → List Coord
  | 0, c => [c]
  | fuel + 1, c =>
    match lookA found c with
    | some (some p) => c :: backtrack found fuel p
    | _ => [c]

/-- The goal test of the search:
`current_cell.x == player.x_goal or current_cell.y == player.y_goal`
(a comparison against Python `None` is false). -/
def isGoal (pl : Player) (c : Coord) : Bool :=
  (match pl.x_goal with | some g => c.1 == g | none => false) ||
  (match pl.y_goal with | some g => c.2 == g | none => false)

/-- The BFS loop of `find_shortest_path`: `cur` is `current_level`, `nxt` is
`next_level`, `found` is `found_cells`.  One fuel unit is spent per loop
iteration; `Board.bfsFuel` is proven sufficient below. -/
def Board.bfs (b : Board) (pl : Player) :
    Nat → List Coord → List Coord → List (Coord × Option Coord) → Option (List Coord)
  | 0, _, _, _ => none
  | _ + 1, [], _, _ => none
  | fuel + 1, c :: cur, nxt, found =>
    if isGoal pl c then
      some (backtrack found found.length c).reverse
    else
      let ns := (b.cell_neighbours c false).filter (fun n => !containsK found n)
      let found' := found ++ ns.map (fun n => (n, some c))
      let nxt' := nxt ++ ns
      if cur.isEmpty then b.bfs pl fuel nxt' [] found'
      else b.bfs pl fuel cur nxt' found'

/-- Fuel that always suffices for the BFS loop: strictly more than the
measure `2 * (capacity - found.length) + cur.length + nxt.length`, where
`capacity = width * height + 1` bounds the number of discoverable cells
(every in-bounds cell plus the root). -/
def Board.bfsFuel (b : Board) : Nat :=
  2 * (b.width.toNat * b.height.toNat + 1) + 2

/-- The search `find_shortest_path` with explicit fuel. -/
def Board.find_shortest_path_fuel (b : Board) (id : Nat) (fuel : Nat) :
    Option (List Coord) :=
  match b.players.get? id with
  | none => none
  | some pl => b.bfs pl fuel [(pl.x, pl.y)] [] [((pl.x, pl.y), none)]

/-- Embedding of `Board.find_shortest_path`: BFS from the player's current cell, rooted
there regardless of the root cell's own state; returns the cell sequence
from the current position to the first goal cell dequeued, or `none` when
the frontier empties (Python's implicit `None`). -/
def Board.find_shortest_path (b : Board) (id : Nat) : Option (List Coord) :=
  b.find_shortest_path_fuel id b.bfsFuel

/-- The scan of `try_to_block_enemy` over `(enemy_path[i-1], enemy_path[i])`
pairs: a cell qualifies when it is not in the acting player's path
dictionary and not a wall; the wall candidate is then chosen from the
travel direction, falling through to the next index when neither
candidate coordinate exists. -/
def Board.blockScan (b : Board) (dic : List Coord) :
    Coord → List Coord → Option (Int × Int × String)
  | _, [] => none
  | prev, cur :: rest =>
    if cur ∉ dic ∧ b.is_wall cur.1 cur.2 = false then
      let dir := cellCompare prev cur
      if dir = "UP" ∨ dir = "DOWN" then
        if b.cell_exist (cur.1 - 1) cur.2 then some (cur.1 - 1, cur.2, "H")
        else if b.cell_exist (cur.1 + 1) cur.2 then some (cur.1 + 1, cur.2, "H")
        else b.blockScan dic cur rest
      else
        if b.cell_exist cur.1 (cur.2 - 1) then some (cur.1, cur.2 - 1, "V")
        else if b.cell_exist cur.1 (cur.2 + 1) then some (cur.1, cur.2 + 1, "V")
        else b.blockScan dic cur rest
    else b.blockScan dic cur rest

/-- Embedding of `Board.try_to_block_enemy`: the path dictionary holds `my_path[1:]`,
and the scan starts at `enemy_path[1]` with `enemy_path[0]` as the
previous cell. -/
def Board.try_to_block_enemy (b : Board) (enemy_path my_path : List Coord) :
    Option (Int × Int × String) :=
  match enemy_path with
  | [] => none
  | e0 :: erest => b.blockScan (my_path.drop 1) e0 erest

/-- A turn's emitted action: either a wall placement line or a direction
token. -/
inductive BotAction where
  | wall (x y : Int) (o : String)
  | move (dir : String)
deriving DecidableEq, Repr

/-- The qualification test of the block-target selection loop:
`(i != my_id and len(paths[my_id]) > len(paths[i])) or
 (len(paths[my_id]) == len(paths[i]) and my_id > i)`. -/
def blockQual (paths : List (List Coord)) (my_id i : Nat) : Prop :=
  (i ≠ my_id ∧ (paths.getD my_id []).length > (paths.getD i []).length) ∨
  ((paths.getD my_id []).length = (paths.getD i []).length ∧ my_id > i)

instance : ∀ paths my_id i, Decidable (blockQual paths my_id i) := fun paths my_id i => by
  unfold blockQual; infer_instance

/-- The block-target selection loop of the main turn code: scan
`i in range(player_count)` and retain `paths[i]` for the last qualifying
`i`. -/
def selectEnemy (paths : List (List Coord)) (player_count my_id : Nat) :
    Option (List Coord) :=
  (List.range player_count).foldl
    (fun acc i =>
      if blockQual paths my_id i then some (paths.getD i [])
      else acc)
    none

/-- The action-emission code of the main turn loop: attempt a block only
when an enemy was targeted (a non-`None`, non-empty path) and the acting
player still holds walls; otherwise emit the direction from the player's
cell to `paths[my_id][1]`.  Python raises when that second element is
missing; that case is embedded as `none`. -/
def decideAction (b : Board) (paths : List (List Coord)) (my_id : Nat) :
    Option BotAction :=
  let enemy_to_block := selectEnemy paths b.players.length my_id
  let can_block :=
    match enemy_to_block with
    | some ep =>
      if ep ≠ [] ∧ (b.players.getD my_id (Player.mk 0 0 0 0 none none)).walls_left > 0 then
        b.try_to_block_enemy ep (paths.getD my_id [])
      else none
    | none => none
  match can_block with
  | some (x, y, o) => some (BotAction.wall x y o)
  | none =>
    match (paths.getD my_id []).get? 1 with
    | some next_cell =>
      match b.players.get? my_id with
      | some pl => some (BotAction.move (cellCompare (pl.x, pl.y) next_cell))
      | none => none
    | none => none

/-- One full decision: compute every player's path (all paths exist in the
scenarios considered; a missing path is embedded as `[]`) and run the
turn's decision code for `my_id`. -/
def decideTurn (b : Board) (my_id : Nat) : Option BotAction :=
  decideAction b
    ((List.range b.players.length).map (fun i => (b.find_shortest_path i).getD []))
    my_id

/-! ## Specification-side notions: adjacency, traversability, paths -/

/-- Two cells are 4-directionally adjacent (in the direction order the
search uses). -/
def adjacent (a c : Coord) : Prop :=
  c = (a.1 + 1, a.2) ∨ c = (a.1, a.2 + 1) ∨ c = (a.1 - 1, a.2) ∨ c = (a.1, a.2 - 1)

instance : ∀ a c, Decidable (adjacent a c) := fun a c => by
  unfold adjacent; infer_instance

/-- A cell is traversable for the search: it exists and is not a wall
(this is what `_cell_neighbours` checks; occupancy is not consulted). -/
def freeCell (b : Board) (c : Coord) : Prop :=
  b.cell_exist c.1 c.2 = true ∧ b.is_wall c.1 c.2 = false

instance : ∀ b c, Decidable (freeCell b c) := fun b c => by
  unfold freeCell; infer_instance

/-- A path the searching entity can walk from `s`: it starts at `s`,
consecutive cells are adjacent, and every cell after the root is
traversable (the root itself is exempt). -/
def ValidPath (b : Board) (s : Coord) (p : List Coord) : Prop :=
  p.head? = some s ∧ List.Chain' adjacent p ∧ ∀ c ∈ p.tail, freeCell b c

/-- A valid path for player `pl` that ends on a goal cell. -/
def GoalPath (b : Board) (pl : Player) (p : List Coord) : Prop :=
  ValidPath b (pl.x, pl.y) p ∧ ∃ g, p.getLast? = some g ∧ isGoal pl g = true

/-- Cell `c` is reachable from `s` in exactly `n` steps. -/
def ReachN (b : Board) (s c : Coord) (n : Nat) : Prop :=
  ∃ p, ValidPath b s p ∧ p.getLast? = some c ∧ p.length = n + 1

/-- Manhattan distance between two coordinates (`Cell.euclidean_dist`,
which despite its name sums absolute coordinate deltas). -/
def euclidean_dist (a c : Coord) : Nat :=
  (a.1 - c.1).natAbs + (a.2 - c.2).natAbs

theorem adjacent_dist {a c : Coord} (h : adjacent a c) : euclidean_dist a c = 1 := by
  rcases h with h | h | h | h <;> subst h <;> simp [euclidean_dist]

theorem euclid_triangle (a m c : Coord) :
    euclidean_dist a c ≤ euclidean_dist a m + euclidean_dist m c := by
  unfold euclidean_dist
  have h1 : a.1 - c.1 = (a.1 - m.1) + (m.1 - c.1) := by ring
  have h2 : a.2 - c.2 = (a.2 - m.2) + (m.2 - c.2) := by ring
  calc (a.1 - c.1).natAbs + (a.2 - c.2).natAbs
      ≤ ((a.1 - m.1).natAbs + (m.1 - c.1).natAbs)
        + ((a.2 - m.2).natAbs + (m.2 - c.2).natAbs) := by
        rw [h1, h2]
        exact Nat.add_le_add (Int.natAbs_add_le _ _) (Int.natAbs_add_le _ _)
    _ = _ := by omega

/-- Along a chain of adjacent cells, the endpoints are at Manhattan
distance at most the number of steps. -/
theorem chain_dist_le : ∀ (p : List Coord) (a z : Coord),
    List.Chain' adjacent p → p.head? = some a → p.getLast? = some z →
    euclidean_dist a z + 1 ≤ p.length := by
  intro p
  induction p with
  | nil => intro a z _ h; simp at h
  | cons x t ih =>
    intro a z hch hh hl
    simp only [List.head?_cons, Option.some.injEq] at hh
    subst hh
    cases t with
    | nil =>
      simp only [List.getLast?_singleton, Option.some.injEq] at hl
      subst hl
      simp [euclidean_dist]
    | cons y t' =>
      have hadj : adjacent x y := (List.chain'_cons.mp hch).1
      have hch' : List.Chain' adjacent (y :: t') := (List.chain'_cons.mp hch).2
      have hl' : (y :: t').getLast? = some z := by
        rw [List.getLast?_cons_cons] at hl; exact hl
      have hrec := ih y z hch' rfl hl'
      have htri := euclid_triangle x y z
      have hone := adjacent_dist hadj
      simp only [List.length_cons] at *
      omega

/-! ## Dictionary (association list) lemmas -/

theorem lookA_append (l1 l2 : List (Coord × Option Coord)) (c : Coord) :
    lookA (l1 ++ l2) c =
      match lookA l1 c with
      | some v => some v
      | none => lookA l2 c := by
  induction l1 with
  | nil => simp [lookA]
  | cons kv t ih =>
    by_cases h : kv.1 = c
    · simp [lookA, h]
    · simpa [lookA, h] using ih

theorem lookA_append_left {l1 : List (Coord × Option Coord)} {c : Coord} {v : Option Coord}
    (h : lookA l1 c = some v) (l2 : List (Coord × Option Coord)) :
    lookA (l1 ++ l2) c = some v := by
  rw [lookA_append, h]

theorem lookA_append_right {l1 : List (Coord × Option Coord)} {c : Coord}
    (h : lookA l1 c = none) (l2 : List (Coord × Option Coord)) :
    lookA (l1 ++ l2) c = lookA l2 c := by
  rw [lookA_append, h]

theorem containsK_iff_mem_keys (found : List (Coord × Option Coord)) (c : Coord) :
    containsK found c = true ↔ c ∈ found.map Prod.fst := by
  induction found with
  | nil => simp [containsK, lookA]
  | cons kv t ih =>
    by_cases h : kv.1 = c
    · simp [containsK, lookA, h]
    · simp only [containsK, lookA, h, if_false, List.map_cons, List.mem_cons]
      rw [← containsK]
      rw [ih]
      constructor
      · intro hm; exact Or.inr hm
      · rintro (he | hm)
        · exact absurd he.symm h
        · exact hm

theorem containsK_append (l1 l2 : List (Coord × Option Coord)) (c : Coord) :
    containsK (l1 ++ l2) c = (containsK l1 c || containsK l2 c) := by
  unfold containsK
  rw [lookA_append]
  cases h : lookA l1 c <;> simp

theorem lookA_map_const {ns : List Coord} {x : Coord} (pre : Coord)
    (h : x ∈ ns) : lookA (ns.map (fun n => (n, some pre))) x = some (some pre) := by
  induction ns with
  | nil => simp at h
  | cons n t ih =>
    rcases List.mem_cons.mp h with he | ht
    · simp [lookA, he]
    · by_cases hn : n = x
      · simp [lookA, hn]
      · simp only [List.map_cons, lookA, hn, if_false]
        exact ih ht

theorem lookA_map_const_not {ns : List Coord} {x : Coord} (pre : Coord)
    (h : x ∉ ns) : lookA (ns.map (fun n => (n, some pre))) x = none := by
  induction ns with
  | nil => simp [lookA]
  | cons n t ih =>
    have hn : n ≠ x := fun he => h (he ▸ List.mem_cons_self n t)
    simp only [List.map_cons, lookA, hn, if_false]
    exact ih (fun ht => h (List.mem_cons_of_mem n ht))

/-! ## Neighbour-list lemmas -/

theorem mem_cell_neighbours {b : Board} {c n : Coord} :
    n ∈ b.cell_neighbours c false ↔ adjacent c n ∧ freeCell b n := by
  unfold Board.cell_neighbours adjacent freeCell
  rw [List.mem_filter]
  simp only [List.mem_cons, List.mem_singleton, List.not_mem_nil, or_false,
    Bool.not_false, Bool.true_and, Bool.and_eq_true, Bool.not_eq_true']

theorem nodup_cell_neighbours (b : Board) (c : Coord) :
    (b.cell_neighbours c false).Nodup := by
  apply List.Nodup.filter
  refine List.nodup_cons.mpr ⟨?_, List.nodup_cons.mpr ⟨?_, List.nodup_cons.mpr
    ⟨?_, List.nodup_singleton _⟩⟩⟩ <;>
    simp only [List.mem_cons, List.mem_singleton, List.not_mem_nil, or_false,
      Prod.mk.injEq, not_or] <;> omega

/-! ## Reachability lemmas -/

theorem reachN_self (b : Board) (s : Coord) : ReachN b s s 0 :=
  ⟨[s], ⟨rfl, List.chain'_singleton s, by simp⟩, rfl, rfl⟩

theorem reachN_extend {b : Board} {s c m : Coord} {n : Nat}
    (h : ReachN b s c n) (hadj : adjacent c m) (hf : freeCell b m) :
    ReachN b s m (n + 1) := by
  obtain ⟨p, ⟨hh, hch, htl⟩, hl, hlen⟩ := h
  have hpne : p ≠ [] := by intro he; rw [he] at hh; simp at hh
  refine ⟨p ++ [m], ⟨?_, ?_, ?_⟩, ?_, ?_⟩
  · rw [List.head?_append_of_ne_nil _ hpne]; exact hh
  · rw [List.chain'_append]
    refine ⟨hch, List.chain'_singleton m, ?_⟩
    intro x hx y hy
    rw [hl] at hx
    simp only [Option.mem_def, Option.some.injEq] at hx
    simp only [List.head?_cons, Option.mem_def, Option.some.injEq] at hy
    rw [← hx, ← hy]; exact hadj
  · intro x hx
    cases p with
    | nil => exact absurd rfl hpne
    | cons a t =>
      simp only [List.cons_append, List.tail_cons] at hx
      rcases List.mem_append.mp hx with h1 | h2
      · exact htl x (by simpa using h1)
      · simp only [List.mem_singleton] at h2
        rw [h2]; exact hf
  · rw [List.getLast?_concat]
  · simp [hlen]

theorem reachN_succ {b : Board} {s c : Coord} {n : Nat} (h : ReachN b s c (n + 1)) :
    ∃ m, ReachN b s m n ∧ adjacent m c ∧ freeCell b c := by
  obtain ⟨p, ⟨hh, hch, htl⟩, hl, hlen⟩ := h
  have hpne : p ≠ [] := by
    intro he; rw [he] at hlen; simp at hlen
  have hlast : p.getLast hpne = c := by
    have := List.getLast?_eq_getLast p hpne
    rw [hl] at this; exact (Option.some.injEq _ _ ▸ this.symm)
  have hsplit : p.dropLast ++ [c] = p := by
    rw [← hlast]; exact List.dropLast_append_getLast hpne
  set q := p.dropLast with hq
  have hqlen : q.length = n + 1 := by
    have := List.length_dropLast p
    rw [← hq] at this; omega
  have hqne : q ≠ [] := by
    intro he; rw [he] at hqlen; simp at hqlen
  have hqlast : q.getLast? = some (q.getLast hqne) := List.getLast?_eq_getLast q hqne
  set m := q.getLast hqne with hm
  have hchq : List.Chain' adjacent q ∧ adjacent m c := by
    have := hch
    rw [← hsplit] at this
    rw [List.chain'_append] at this
    refine ⟨this.1, ?_⟩
    have := this.2.2 m (by rw [hqlast]; rfl) c rfl
    exact this
  have htails : p.tail = q.tail ++ [c] := by
    conv_lhs => rw [← hsplit]
    exact List.tail_append_singleton_of_ne_nil hqne
  refine ⟨m, ⟨q, ⟨?_, hchq.1, ?_⟩, hqlast, hqlen⟩, hchq.2, ?_⟩
  · rw [← hsplit] at hh
    rwa [List.head?_append_of_ne_nil _ hqne] at hh
  · intro x hx
    exact htl x (by rw [htails]; exact List.mem_append_left _ hx)
  · exact htl c (by rw [htails]; exact List.mem_append_right _ (List.mem_singleton_self c))

/-! ## The BFS loop invariant -/

/-- Invariant of the `find_shortest_path` BFS loop, for root `s`, current
level `cur` (depth `k`), next level `nxt` (depth `k + 1`), dictionary
`found`, and ghost depth assignment `dep`. -/
structure BfsInv (b : Board) (pl : Player) (s : Coord) (cur nxt : List Coord)
    (found : List (Coord × Option Coord)) (k : Nat) (dep : Coord → Nat) : Prop where
  nodupK : (found.map Prod.fst).Nodup
  rootLook : lookA found s = some none
  noneRoot : ∀ c, lookA found c = some none → c = s
  entry : ∀ c p, lookA found c = some (some p) →
    adjacent p c ∧ freeCell b c ∧ containsK found p = true ∧ dep c = dep p + 1
  depRoot : dep s = 0
  reach : ∀ c, containsK found c = true → ReachN b s c (dep c)
  curIn : ∀ c ∈ cur, containsK found c = true ∧ dep c = k
  nxtIn : ∀ c ∈ nxt, containsK found c = true ∧ dep c = k + 1
  depAll : ∀ c, containsK found c = true → dep c ≤ k + 1
  closure : ∀ c, containsK found c = true → c ∉ cur → c ∉ nxt →
    isGoal pl c = false ∧
    ∀ n ∈ b.cell_neighbours c false, containsK found n = true ∧ dep n ≤ dep c + 1
  distLow : ∀ c n, ReachN b s c n → n < k →
    containsK found c = true ∧ dep c ≤ n ∧ c ∉ cur ∧ c ∉ nxt
  emptyCur : cur = [] → nxt = []

/-- The invariant at the initial state of the search. -/
theorem bfsInv_init (b : Board) (pl : Player) (s : Coord) :
    BfsInv b pl s [s] [] [(s, none)] 0 (fun _ => 0) := by
  constructor
  · simp
  · simp [lookA]
  · intro c hc
    by_cases h : s = c
    · exact h.symm
    · simp [lookA, h] at hc
  · intro c p hc
    by_cases h : s = c <;> simp [lookA, h] at hc
  · rfl
  · intro c hc
    have : s = c := by
      by_cases h : s = c
      · exact h
      · simp [containsK, lookA, h] at hc
    rw [← this]; exact reachN_self b s
  · intro c hc
    rw [List.mem_singleton] at hc
    subst hc
    exact ⟨by simp [containsK, lookA], rfl⟩
  · intro c hc; simp at hc
  · intro c _; omega
  · intro c hc hcur _
    exfalso
    have : s = c := by
      by_cases h : s = c
      · exact h
      · simp [containsK, lookA, h] at hc
    exact hcur (this ▸ List.mem_singleton_self s)
  · intro c n _ hn; omega
  · intro h; simp at h

/-- Specification of the reconstruction walk `backtrack` under the loop
invariant: from any found cell `c` it yields the reversed cell sequence of
a valid path from the root to `c`, of length `dep c + 1`, with strictly
decreasing depths (hence no duplicates). -/
theorem backtrack_spec {b : Board} {pl : Player} {s : Coord} {cur nxt : List Coord}
    {found : List (Coord × Option Coord)} {k : Nat} {dep : Coord → Nat}
    (inv : BfsInv b pl s cur nxt found k dep) :
    ∀ fuel c, containsK found c = true → dep c < fuel →
      (backtrack found fuel c).length = dep c + 1 ∧
      (backtrack found fuel c).reverse.head? = some s ∧
      List.Chain' adjacent (backtrack found fuel c).reverse ∧
      (∀ x ∈ (backtrack found fuel c).reverse.tail, freeCell b x) ∧
      (backtrack found fuel c).reverse.getLast? = some c ∧
      (∀ x ∈ backtrack found fuel c, containsK found x = true) ∧
      (∀ x ∈ backtrack found fuel c, dep x ≤ dep c) ∧
      (backtrack found fuel c).Pairwise (fun u v => dep v < dep u) := by
  intro fuel
  induction fuel with
  | zero => intro c _ h; omega
  | succ f ih =>
    intro c hc hf
    cases hv : lookA found c with
    | none => rw [containsK, hv] at hc; simp at hc
    | some v =>
      cases v with
      | none =>
        have hcs : c = s := inv.noneRoot c hv
        subst hcs
        have hdep0 : dep c = 0 := inv.depRoot
        simp only [backtrack, hv, hdep0]
        refine ⟨rfl, rfl, ?_, ?_, rfl, ?_, ?_, ?_⟩
        · exact List.chain'_singleton c
        · intro x hx; simp at hx
        · intro x hx; rw [List.mem_singleton] at hx; rw [hx]; exact hc
        · intro x hx; rw [List.mem_singleton] at hx; rw [hx, hdep0]
        · exact List.pairwise_singleton _ c
      | some p =>
        obtain ⟨hadj, hfree, hcp, hdep⟩ := inv.entry c p hv
        have hfp : dep p < f := by omega
        obtain ⟨ihlen, ihhead, ihchain, ihtail, ihlast, ihmem, ihdep, ihpw⟩ :=
          ih p hcp hfp
        have hne : backtrack found f p ≠ [] := by
          intro he; rw [he] at ihlen; simp at ihlen
        have hrne : (backtrack found f p).reverse ≠ [] := by
          simpa using hne
        simp only [backtrack, hv]
        constructor
        · simp only [List.length_cons, ihlen, hdep]
        refine ⟨?_, ?_, ?_, ?_, ?_, ?_, ?_⟩
        · rw [List.reverse_cons, List.head?_append_of_ne_nil _ hrne]; exact ihhead
        · rw [List.reverse_cons, List.chain'_append]
          refine ⟨ihchain, List.chain'_singleton c, ?_⟩
          intro x hx y hy
          rw [ihlast] at hx
          simp only [Option.mem_def, Option.some.injEq] at hx
          simp only [List.head?_cons, Option.mem_def, Option.some.injEq] at hy
          rw [← hx, ← hy]; exact hadj
        · rw [List.reverse_cons, List.tail_append_singleton_of_ne_nil hrne]
          intro x hx
          rcases List.mem_append.mp hx with h1 | h2
          · exact ihtail x h1
          · rw [List.mem_singleton] at h2; rw [h2]; exact hfree
        · rw [List.reverse_cons, List.getLast?_concat]
        · intro x hx
          rcases List.mem_cons.mp hx with h1 | h2
          · rw [h1]; exact hc
          · exact ihmem x h2
        · intro x hx
          rcases List.mem_cons.mp hx with h1 | h2
          · rw [h1]
          · have := ihdep x h2; omega
        · rw [List.pairwise_cons]
          refine ⟨?_, ihpw⟩
          intro x hx
          have := ihdep x hx; omega

/-- Under the invariant, the dictionary never exceeds the number of
in-bounds cells plus one (the root): every key is the root or an existing
non-wall cell, and keys never repeat. -/
theorem found_length_le {b : Board} {pl : Player} {s : Coord} {cur nxt : List Coord}
    {found : List (Coord × Option Coord)} {k : Nat} {dep : Coord → Nat}
    (inv : BfsInv b pl s cur nxt found k dep) :
    found.length ≤ b.width.toNat * b.height.toNat + 1 := by
  classical
  set keys := found.map Prod.fst with hkeys
  have hlen : found.length = keys.length := by simp [hkeys]
  have hmem : ∀ c ∈ keys, c = s ∨ freeCell b c := by
    intro c hc
    have hck : containsK found c = true := (containsK_iff_mem_keys found c).mpr hc
    rw [containsK] at hck
    cases hv : lookA found c with
    | none => rw [hv] at hck; simp at hck
    | some v =>
      cases v with
      | none => exact Or.inl (inv.noneRoot c hv)
      | some p => exact Or.inr (inv.entry c p hv).2.1
  set S : Finset Coord :=
    (Finset.Ico (0 : Int) b.width) ×ˢ (Finset.Ico (0 : Int) b.height) with hS
  have hsub : keys.toFinset ⊆ insert s S := by
    intro c hc
    rcases hmem c (List.mem_toFinset.mp hc) with he | hfree
    · rw [he]; exact Finset.mem_insert_self s S
    · refine Finset.mem_insert_of_mem ?_
      rw [hS, Finset.mem_product, Finset.mem_Ico, Finset.mem_Ico]
      have := hfree.1
      rw [Board.cell_exist] at this
      simp only [Bool.and_eq_true, decide_eq_true_eq] at this
      exact ⟨⟨this.1.1.1, this.1.1.2⟩, ⟨this.1.2, this.2⟩⟩
  have hcard : keys.toFinset.card = keys.length :=
    List.toFinset_card_of_nodup inv.nodupK
  have hScard : S.card = b.width.toNat * b.height.toNat := by
    rw [hS, Finset.card_product, Int.card_Ico, Int.card_Ico]
    simp
  calc found.length = keys.toFinset.card := by rw [hlen, hcard]
    _ ≤ (insert s S).card := Finset.card_le_card hsub
    _ ≤ S.card + 1 := Finset.card_insert_le s S
    _ = b.width.toNat * b.height.toNat + 1 := by rw [hScard]

theorem reachN_zero {b : Board} {s c : Coord} (h : ReachN b s c 0) : c = s := by
  obtain ⟨p, ⟨hh, _, _⟩, hl, hlen⟩ := h
  cases p with
  | nil => simp at hlen
  | cons x t =>
    cases t with
    | nil =>
      simp only [List.head?_cons, Option.some.injEq] at hh
      simp only [List.getLast?_singleton, Option.some.injEq] at hl
      rw [← hl, hh]
    | cons y t' => simp at hlen

theorem containsK_step (found : List (Coord × Option Coord)) (ns : List Coord)
    (c0 c : Coord) :
    containsK (found ++ ns.map (fun n => (n, some c0))) c =
      (containsK found c || decide (c ∈ ns)) := by
  rw [containsK_append]
  congr 1
  by_cases h : c ∈ ns
  · simp [containsK, lookA_map_const c0 h, h]
  · simp [containsK, lookA_map_const_not c0 h, h]

theorem map_fst_map_pair (ns : List Coord) (c0 : Coord) :
    (ns.map (fun n => (n, some c0))).map Prod.fst = ns := by
  induction ns with
  | nil => rfl
  | cons a t iht => simp only [List.map_cons, List.cons.injEq]; exact ⟨trivial, iht⟩

/-- Preservation of the BFS invariant by one loop iteration that dequeues a
non-goal cell `c0`: the within-level continuation (when `current_level` is
still non-empty) and the level switch (when it is empty) both restore the
invariant. -/
theorem bfsInv_step {b : Board} {pl : Player} {s c0 : Coord} {cur' nxt : List Coord}
    {found : List (Coord × Option Coord)} {k : Nat} {dep : Coord → Nat}
    (ns : List Coord) (found' : List (Coord × Option Coord)) (dep' : Coord → Nat)
    (hns : ns = (b.cell_neighbours c0 false).filter (fun n => !containsK found n))
    (hf : found' = found ++ ns.map (fun n => (n, some c0)))
    (hd : dep' = fun x => if x ∈ ns then k + 1 else dep x)
    (inv : BfsInv b pl s (c0 :: cur') nxt found k dep)
    (hgoal : isGoal pl c0 = false) :
    (cur' ≠ [] → BfsInv b pl s cur' (nxt ++ ns) found' k dep') ∧
    (cur' = [] → BfsInv b pl s (nxt ++ ns) [] found' (k + 1) dep') := by
  obtain ⟨hc0K, hc0dep⟩ := inv.curIn c0 (List.mem_cons_self c0 cur')
  have hnsP : ∀ n ∈ ns, (adjacent c0 n ∧ freeCell b n) ∧ containsK found n = false := by
    intro n hn
    rw [hns, List.mem_filter] at hn
    exact ⟨mem_cell_neighbours.mp hn.1, by simpa using hn.2⟩
  have hnsNodup : ns.Nodup := by
    rw [hns]; exact (nodup_cell_neighbours b c0).filter _
  have hOldNotNs : ∀ c, containsK found c = true → c ∉ ns := by
    intro c hc hmem
    rw [(hnsP c hmem).2] at hc
    exact Bool.false_ne_true hc
  have hK' : ∀ c, containsK found' c = (containsK found c || decide (c ∈ ns)) := by
    intro c; rw [hf]; exact containsK_step found ns c0 c
  have hKmono : ∀ c, containsK found c = true → containsK found' c = true := by
    intro c hc; rw [hK', hc]; rfl
  have hKns : ∀ c ∈ ns, containsK found' c = true := by
    intro c hc; rw [hK']; simp [hc]
  have hdepOld : ∀ c, containsK found c = true → dep' c = dep c := by
    intro c hc; rw [hd]; simp [hOldNotNs c hc]
  have hdepNs : ∀ c ∈ ns, dep' c = k + 1 := by
    intro c hc; rw [hd]; simp [hc]
  have hlookOld : ∀ c v, lookA found c = some v → lookA found' c = some v := by
    intro c v hv; rw [hf]; exact lookA_append_left hv _
  -- mem of neighbours of c0 lands in found'
  have hnbr : ∀ n ∈ b.cell_neighbours c0 false,
      containsK found' n = true ∧ dep' n ≤ dep' c0 + 1 := by
    intro n hn
    have hdc0 : dep' c0 = k := by rw [hdepOld c0 hc0K, hc0dep]
    by_cases hck : containsK found n = true
    · refine ⟨hKmono n hck, ?_⟩
      rw [hdepOld n hck, hdc0]
      exact inv.depAll n hck
    · have hnf : containsK found n = false := by
        revert hck; cases containsK found n <;> simp
      have hmem : n ∈ ns := by
        rw [hns, List.mem_filter]
        exact ⟨hn, by rw [hnf]; rfl⟩
      refine ⟨hKns n hmem, ?_⟩
      rw [hdepNs n hmem, hdc0]
  -- shared dictionary fields
  have nodupK' : (found'.map Prod.fst).Nodup := by
    rw [hf, List.map_append]
    rw [map_fst_map_pair ns c0]
    refine inv.nodupK.append hnsNodup ?_
    intro c hck hcn
    exact hOldNotNs c ((containsK_iff_mem_keys found c).mpr hck) hcn
  have rootLook' : lookA found' s = some none := hlookOld s none inv.rootLook
  have noneRoot' : ∀ c, lookA found' c = some none → c = s := by
    intro c hc
    rw [hf, lookA_append] at hc
    cases hv : lookA found c with
    | some v => rw [hv] at hc; exact inv.noneRoot c (by rw [hv]; simpa using hc)
    | none =>
      rw [hv] at hc
      by_cases hmem : c ∈ ns
      · rw [lookA_map_const c0 hmem] at hc; simp at hc
      · rw [lookA_map_const_not c0 hmem] at hc; simp at hc
  have entry' : ∀ c p, lookA found' c = some (some p) →
      adjacent p c ∧ freeCell b c ∧ containsK found' p = true ∧ dep' c = dep' p + 1 := by
    intro c p hc
    rw [hf, lookA_append] at hc
    cases hv : lookA found c with
    | some v =>
      rw [hv] at hc
      simp only [Option.some.injEq] at hc
      subst hc
      obtain ⟨h1, h2, h3, h4⟩ := inv.entry c p hv
      refine ⟨h1, h2, hKmono p h3, ?_⟩
      rw [hdepOld c (by rw [containsK, hv]; rfl), hdepOld p h3, h4]
    | none =>
      rw [hv] at hc
      by_cases hmem : c ∈ ns
      · rw [lookA_map_const c0 hmem] at hc
        simp only [Option.some.injEq] at hc
        subst hc
        obtain ⟨⟨hadj, hfree⟩, _⟩ := hnsP c hmem
        refine ⟨hadj, hfree, hKmono c0 hc0K, ?_⟩
        rw [hdepNs c hmem, hdepOld c0 hc0K, hc0dep]
      · rw [lookA_map_const_not c0 hmem] at hc; simp at hc
  have depRoot' : dep' s = 0 := by
    rw [hdepOld s (by rw [containsK, inv.rootLook]; rfl)]
    exact inv.depRoot
  have reach' : ∀ c, containsK found' c = true → ReachN b s c (dep' c) := by
    intro c hc
    rw [hK'] at hc
    rcases Bool.or_eq_true_iff.mp hc with hold | hnew
    · rw [hdepOld c hold]; exact inv.reach c hold
    · have hmem : c ∈ ns := of_decide_eq_true hnew
      obtain ⟨⟨hadj, hfree⟩, _⟩ := hnsP c hmem
      rw [hdepNs c hmem]
      have := reachN_extend (inv.reach c0 hc0K) hadj hfree
      rw [hc0dep] at this
      exact this
  have nxtIn' : ∀ c ∈ nxt ++ ns, containsK found' c = true ∧ dep' c = k + 1 := by
    intro c hc
    rcases List.mem_append.mp hc with h1 | h2
    · obtain ⟨hck, hdepc⟩ := inv.nxtIn c h1
      exact ⟨hKmono c hck, by rw [hdepOld c hck]; exact hdepc⟩
    · exact ⟨hKns c h2, hdepNs c h2⟩
  -- closure of the newly expanded cell c0
  have closC0 : isGoal pl c0 = false ∧
      ∀ n ∈ b.cell_neighbours c0 false, containsK found' n = true ∧ dep' n ≤ dep' c0 + 1 :=
    ⟨hgoal, hnbr⟩
  -- closure transfer for previously expanded cells
  have closOld : ∀ c, containsK found c = true → c ∉ (c0 :: cur') → c ∉ nxt →
      isGoal pl c = false ∧
      ∀ n ∈ b.cell_neighbours c false, containsK found' n = true ∧ dep' n ≤ dep' c + 1 := by
    intro c hck hcur hnxt
    obtain ⟨hG, hnb⟩ := inv.closure c hck hcur hnxt
    refine ⟨hG, ?_⟩
    intro n hn
    obtain ⟨hnk, hnd⟩ := hnb n hn
    refine ⟨hKmono n hnk, ?_⟩
    rw [hdepOld n hnk, hdepOld c hck]
    exact hnd
  constructor
  · -- within-level continuation
    intro hcur'
    constructor
    · exact nodupK'
    · exact rootLook'
    · exact noneRoot'
    · exact entry'
    · exact depRoot'
    · exact reach'
    · intro c hc
      obtain ⟨hck, hdepc⟩ := inv.curIn c (List.mem_cons_of_mem c0 hc)
      exact ⟨hKmono c hck, by rw [hdepOld c hck]; exact hdepc⟩
    · exact nxtIn'
    · intro c hc
      rw [hK'] at hc
      rcases Bool.or_eq_true_iff.mp hc with hold | hnew
      · rw [hdepOld c hold]; exact inv.depAll c hold
      · rw [hdepNs c (of_decide_eq_true hnew)]
    · intro c hc hc1 hc2
      rw [hK'] at hc
      rcases Bool.or_eq_true_iff.mp hc with hold | hnew
      · by_cases hcc0 : c = c0
        · subst hcc0; exact closC0
        · refine closOld c hold ?_ ?_
          · intro hmem
            rcases List.mem_cons.mp hmem with h | h
            · exact hcc0 h
            · exact hc1 h
          · intro hmem; exact hc2 (List.mem_append_left ns hmem)
      · exact absurd (List.mem_append_right nxt (of_decide_eq_true hnew)) hc2
    · intro c n hrn hnk
      obtain ⟨hck, hdepc, hcc, hcn⟩ := inv.distLow c n hrn hnk
      refine ⟨hKmono c hck, by rw [hdepOld c hck]; exact hdepc, ?_, ?_⟩
      · intro hmem; exact hcc (List.mem_cons_of_mem c0 hmem)
      · intro hmem
        rcases List.mem_append.mp hmem with h | h
        · exact hcn h
        · exact hOldNotNs c hck h
    · intro h; exact absurd h hcur'
  · -- level switch
    intro hcur'
    subst hcur'
    constructor
    · exact nodupK'
    · exact rootLook'
    · exact noneRoot'
    · exact entry'
    · exact depRoot'
    · exact reach'
    · exact nxtIn'
    · intro c hc; simp at hc
    · intro c hc
      rw [hK'] at hc
      rcases Bool.or_eq_true_iff.mp hc with hold | hnew
      · rw [hdepOld c hold]
        have := inv.depAll c hold; omega
      · rw [hdepNs c (of_decide_eq_true hnew)]; omega
    · intro c hc hc1 _
      rw [hK'] at hc
      rcases Bool.or_eq_true_iff.mp hc with hold | hnew
      · by_cases hcc0 : c = c0
        · subst hcc0; exact closC0
        · refine closOld c hold ?_ ?_
          · intro hmem
            rcases List.mem_cons.mp hmem with h | h
            · exact hcc0 h
            · simp at h
          · intro hmem; exact hc1 (List.mem_append_left ns hmem)
      · exact absurd (List.mem_append_right nxt (of_decide_eq_true hnew)) hc1
    · intro c n hrn hnk1
      by_cases hnk : n < k
      · obtain ⟨hck, hdepc, hcc, hcn⟩ := inv.distLow c n hrn hnk
        refine ⟨hKmono c hck, by rw [hdepOld c hck]; exact hdepc, ?_, ?_⟩
        · intro hmem
          rcases List.mem_append.mp hmem with h | h
          · exact hcn h
          · exact hOldNotNs c hck h
        · intro hmem; simp at hmem
      · have hkn : k = n := by omega
        subst hkn
        cases k with
        | zero =>
          have hcs : c = s := reachN_zero hrn
          subst hcs
          have hsk : containsK found c = true := by rw [containsK, inv.rootLook]; rfl
          refine ⟨hKmono c hsk, ?_, ?_, ?_⟩
          · rw [hdepOld c hsk, inv.depRoot]
          · intro hmem
            rcases List.mem_append.mp hmem with h | h
            · have := (inv.nxtIn c h).2
              rw [inv.depRoot] at this; omega
            · exact hOldNotNs c hsk h
          · intro hmem; simp at hmem
        | succ m =>
          obtain ⟨q, hq, hadjq, hfreec⟩ := reachN_succ hrn
          have hmk : m < m + 1 := by omega
          obtain ⟨hqk, hqdep, hqcur, hqnxt⟩ := inv.distLow q m hq hmk
          obtain ⟨_, hnb⟩ := inv.closure q hqk hqcur hqnxt
          have hcnb : c ∈ b.cell_neighbours q false :=
            mem_cell_neighbours.mpr ⟨hadjq, hfreec⟩
          obtain ⟨hckq, hdepcq⟩ := hnb c hcnb
          refine ⟨hKmono c hckq, ?_, ?_, ?_⟩
          · rw [hdepOld c hckq]; omega
          · intro hmem
            rcases List.mem_append.mp hmem with h | h
            · have := (inv.nxtIn c h).2
              omega
            · exact hOldNotNs c hckq h
          · intro hmem; simp at hmem
    · intro _; rfl

/-- Unfolding equation for one BFS iteration with a non-empty current level. -/
theorem bfs_cons (b : Board) (pl : Player) (fuel : Nat) (c : Coord)
    (cur nxt : List Coord) (found : List (Coord × Option Coord)) :
    b.bfs pl (fuel + 1) (c :: cur) nxt found =
      if isGoal pl c then some (backtrack found found.length c).reverse
      else
        if cur.isEmpty then
          b.bfs pl fuel
            (nxt ++ (b.cell_neighbours c false).filter (fun n => !containsK found n)) []
            (found ++ ((b.cell_neighbours c false).filter
              (fun n => !containsK found n)).map (fun n => (n, some c)))
        else
          b.bfs pl fuel cur
            (nxt ++ (b.cell_neighbours c false).filter (fun n => !containsK found n))
            (found ++ ((b.cell_neighbours c false).filter
              (fun n => !containsK found n)).map (fun n => (n, some c))) := rfl

/-- When the loop has emptied both levels, no valid path from the root
reaches a goal cell: every discovered cell has been expanded without the
goal test succeeding, and the discovered set is closed under traversable
neighbours. -/
theorem no_goalPath_of_closed {b : Board} {pl : Player} {s : Coord}
    {found : List (Coord × Option Coord)} {k : Nat} {dep : Coord → Nat}
    (inv : BfsInv b pl s [] [] found k dep) :
    ¬ ∃ q, ValidPath b s q ∧ ∃ g, q.getLast? = some g ∧ isGoal pl g = true := by
  rintro ⟨q, ⟨hh, hch, htl⟩, g, hl, hG⟩
  have walk : ∀ (rest : List Coord) (a : Coord), containsK found a = true →
      List.Chain' adjacent (a :: rest) → (∀ x ∈ rest, freeCell b x) →
      ∀ x ∈ rest, containsK found x = true := by
    intro rest
    induction rest with
    | nil => intro a _ _ _ x hx; simp at hx
    | cons y t ih =>
      intro a ha hach hatl x hx
      have hay : adjacent a y := (List.chain'_cons.mp hach).1
      have hyfree : freeCell b y := hatl y (List.mem_cons_self y t)
      have hyK : containsK found y = true :=
        ((inv.closure a ha (by simp) (by simp)).2 y
          (mem_cell_neighbours.mpr ⟨hay, hyfree⟩)).1
      rcases List.mem_cons.mp hx with he | ht
      · rw [he]; exact hyK
      · exact ih y hyK (List.chain'_cons.mp hach).2
          (fun z hz => hatl z (List.mem_cons_of_mem y hz)) x ht
  have hsK : containsK found s = true := by rw [containsK, inv.rootLook]; rfl
  have hall : ∀ x ∈ q, containsK found x = true := by
    cases q with
    | nil => intro x hx; simp at hx
    | cons a rest =>
      simp only [List.head?_cons, Option.some.injEq] at hh
      have haK : containsK found a = true := by rw [hh]; exact hsK
      intro x hx
      rcases List.mem_cons.mp hx with he | ht
      · rw [he]; exact haK
      · exact walk rest a haK hch (fun z hz => htl z hz) x ht
  have hgmem : g ∈ q := by
    obtain ⟨hne, heq⟩ := List.mem_getLast?_eq_getLast (show g ∈ q.getLast? by rw [hl]; rfl)
    rw [heq]
    exact List.getLast_mem hne
  have := (inv.closure g (hall g hgmem) (by simp) (by simp)).1
  rw [this] at hG
  exact Bool.false_ne_true hG

/-- Full specification of the BFS loop under its invariant, with enough
fuel: the result is fuel-independent; a returned sequence is a valid path
from the root to a goal cell of minimal length; `none` is returned exactly
when no valid path reaches a goal cell. -/
theorem bfs_spec {b : Board} {pl : Player} {s : Coord} :
    ∀ (fuel : Nat) (cur nxt : List Coord) (found : List (Coord × Option Coord))
      (k : Nat) (dep : Coord → Nat),
      BfsInv b pl s cur nxt found k dep →
      2 * (b.width.toNat * b.height.toNat + 1 - found.length) + cur.length + nxt.length
        < fuel →
      (b.bfs pl (fuel + 1) cur nxt found = b.bfs pl fuel cur nxt found) ∧
      (∀ p, b.bfs pl fuel cur nxt found = some p →
        ValidPath b s p ∧ (∃ g, p.getLast? = some g ∧ isGoal pl g = true) ∧
        (∀ q, ValidPath b s q → (∃ g', q.getLast? = some g' ∧ isGoal pl g' = true) →
          p.length ≤ q.length)) ∧
      (b.bfs pl fuel cur nxt found = none →
        ¬ ∃ q, ValidPath b s q ∧ ∃ g, q.getLast? = some g ∧ isGoal pl g = true) := by
  intro fuel
  induction fuel with
  | zero => intro cur nxt found k dep _ hm; omega
  | succ f ih =>
    intro cur nxt found k dep inv hm
    cases cur with
    | nil =>
      have hnxt : nxt = [] := inv.emptyCur rfl
      subst hnxt
      refine ⟨rfl, ?_, ?_⟩
      · intro p hp
        exact absurd hp (by simp [Board.bfs])
      · intro _
        exact no_goalPath_of_closed inv
    | cons c0 cur' =>
      obtain ⟨hc0K, hc0dep⟩ := inv.curIn c0 (List.mem_cons_self c0 cur')
      cases hg : isGoal pl c0 with
      | true =>
        have hred : ∀ fl, b.bfs pl (fl + 1) (c0 :: cur') nxt found =
            some (backtrack found found.length c0).reverse := by
          intro fl; rw [bfs_cons, if_pos hg]
        refine ⟨by rw [hred, hred], ?_, ?_⟩
        · intro p hp
          rw [hred] at hp
          -- first, dep c0 < found.length
          obtain ⟨hlen0, _, _, _, _, hmem0, _, hpw0⟩ :=
            backtrack_spec inv (dep c0 + 1) c0 hc0K (by omega)
          have hnodup0 : (backtrack found (dep c0 + 1) c0).Nodup :=
            hpw0.imp (fun hlt => by intro he; rw [he] at hlt; omega)
          have hsub0 : backtrack found (dep c0 + 1) c0 ⊆ found.map Prod.fst := by
            intro x hx
            exact (containsK_iff_mem_keys found x).mp (hmem0 x hx)
          have hle0 : (backtrack found (dep c0 + 1) c0).length ≤ found.length := by
            have := (hnodup0.subperm hsub0).length_le
            simpa using this
          have hdlt : dep c0 < found.length := by omega
          obtain ⟨hlen, hhead, hchain, htail, hlast, _, _, _⟩ :=
            backtrack_spec inv found.length c0 hc0K hdlt
          injection hp with hp
          subst hp
          refine ⟨⟨hhead, hchain, htail⟩, ⟨c0, hlast, hg⟩, ?_⟩
          intro q ⟨hqh, hqch, hqtl⟩ ⟨g', hql, hqG⟩
          have hqne : q ≠ [] := by
            intro he; rw [he] at hql; simp at hql
          have hq1 : 1 ≤ q.length := by
            cases q with
            | nil => exact absurd rfl hqne
            | cons _ _ => simp
          have hreach : ReachN b s g' (q.length - 1) :=
            ⟨q, ⟨hqh, hqch, hqtl⟩, hql, by omega⟩
          by_cases hlt : q.length - 1 < k
          · obtain ⟨hgK, _, hgcur, hgnxt⟩ := inv.distLow g' (q.length - 1) hreach hlt
            have := (inv.closure g' hgK hgcur hgnxt).1
            rw [this] at hqG
            exact absurd hqG Bool.false_ne_true
          · have hplen : (backtrack found found.length c0).reverse.length = dep c0 + 1 := by
              rw [List.length_reverse]; exact hlen
            omega
        · intro hnone
          rw [hred] at hnone
          exact absurd hnone (by simp)
      | false =>
        have hgneg : ¬ (isGoal pl c0 = true) := by rw [hg]; exact Bool.false_ne_true
        set ns := (b.cell_neighbours c0 false).filter (fun n => !containsK found n)
          with hns
        set found2 := found ++ ns.map (fun n => (n, some c0)) with hf
        set dep2 : Coord → Nat := fun x => if x ∈ ns then k + 1 else dep x with hd
        obtain ⟨hstep1, hstep2⟩ := bfsInv_step ns found2 dep2 hns hf hd inv hg
        have hflen : found2.length = found.length + ns.length := by
          rw [hf, List.length_append, List.length_map]
        cases cur' with
        | nil =>
          have inv2 := hstep2 rfl
          have hfle2 : found2.length ≤ b.width.toNat * b.height.toNat + 1 :=
            found_length_le inv2
          have hred : ∀ fl, b.bfs pl (fl + 1) (c0 :: []) nxt found =
              b.bfs pl fl (nxt ++ ns) [] found2 := by
            intro fl
            rw [bfs_cons, if_neg hgneg]
            rfl
          simp only [List.length_cons, List.length_nil] at hm
          have hm2 : 2 * (b.width.toNat * b.height.toNat + 1 - found2.length)
              + (nxt ++ ns).length + ([] : List Coord).length < f := by
            simp only [List.length_append, List.length_nil]
            omega
          obtain ⟨ihstab, ihsome, ihnone⟩ := ih (nxt ++ ns) [] found2 (k + 1) dep2 inv2 hm2
          refine ⟨?_, ?_, ?_⟩
          · rw [hred (f + 1), hred f]; exact ihstab
          · intro p hp; rw [hred f] at hp; exact ihsome p hp
          · intro hp; rw [hred f] at hp; exact ihnone hp
        | cons d ds =>
          have inv2 := hstep1 (List.cons_ne_nil d ds)
          have hfle2 : found2.length ≤ b.width.toNat * b.height.toNat + 1 :=
            found_length_le inv2
          have hred : ∀ fl, b.bfs pl (fl + 1) (c0 :: d :: ds) nxt found =
              b.bfs pl fl (d :: ds) (nxt ++ ns) found2 := by
            intro fl
            rw [bfs_cons, if_neg hgneg]
            rfl
          simp only [List.length_cons] at hm
          have hm2 : 2 * (b.width.toNat * b.height.toNat + 1 - found2.length)
              + (d :: ds).length + (nxt ++ ns).length < f := by
            simp only [List.length_append, List.length_cons]
            omega
          obtain ⟨ihstab, ihsome, ihnone⟩ := ih (d :: ds) (nxt ++ ns) found2 k dep2 inv2 hm2
          refine ⟨?_, ?_, ?_⟩
          · rw [hred (f + 1), hred f]; exact ihstab
          · intro p hp; rw [hred f] at hp; exact ihsome p hp
          · intro hp; rw [hred f] at hp; exact ihnone hp

/-- Top-level specification of `find_shortest_path` for a valid player id:
any returned sequence is a valid path from the player's position to a goal
cell and is no longer than any other such path; `none` is returned exactly
when no goal cell is reachable; and any fuel of at least `bfsFuel` gives
the same result (the loop has terminated). -/
theorem find_shortest_path_spec (b : Board) (id : Nat) (pl : Player)
    (hpl : b.players.get? id = some pl) :
    (∀ p, b.find_shortest_path id = some p →
      ValidPath b (pl.x, pl.y) p ∧ (∃ g, p.getLast? = some g ∧ isGoal pl g = true) ∧
      (∀ q, GoalPath b pl q → p.length ≤ q.length)) ∧
    (b.find_shortest_path id = none ↔ ¬ ∃ q, GoalPath b pl q) ∧
    (∀ fuel, b.bfsFuel ≤ fuel → b.find_shortest_path_fuel id fuel = b.find_shortest_path id) := by
  have hinv := bfsInv_init b pl (pl.x, pl.y)
  have hm : 2 * (b.width.toNat * b.height.toNat + 1
      - ([((pl.x, pl.y), (none : Option Coord))]).length)
      + ([(pl.x, pl.y)]).length + ([] : List Coord).length < b.bfsFuel := by
    simp only [List.length_singleton, List.length_nil, Board.bfsFuel]
    omega
  obtain ⟨hstab, hsome, hnone⟩ :=
    bfs_spec b.bfsFuel [(pl.x, pl.y)] [] [((pl.x, pl.y), none)] 0 (fun _ => 0) hinv hm
  have hrun : b.find_shortest_path id =
      b.bfs pl b.bfsFuel [(pl.x, pl.y)] [] [((pl.x, pl.y), none)] := by
    rw [Board.find_shortest_path, Board.find_shortest_path_fuel, hpl]
  have hstabAll : ∀ d, b.bfs pl (b.bfsFuel + d) [(pl.x, pl.y)] [] [((pl.x, pl.y), none)]
      = b.bfs pl b.bfsFuel [(pl.x, pl.y)] [] [((pl.x, pl.y), none)] := by
    intro d
    induction d with
    | zero => rfl
    | succ e ihe =>
      have hm' : 2 * (b.width.toNat * b.height.toNat + 1
          - ([((pl.x, pl.y), (none : Option Coord))]).length)
          + ([(pl.x, pl.y)]).length + ([] : List Coord).length < b.bfsFuel + e := by
        simp only [List.length_singleton, List.length_nil, Board.bfsFuel] at hm ⊢
        omega
      have := (bfs_spec (b.bfsFuel + e) [(pl.x, pl.y)] [] [((pl.x, pl.y), none)] 0
        (fun _ => 0) hinv hm').1
      calc b.bfs pl (b.bfsFuel + (e + 1)) [(pl.x, pl.y)] [] [((pl.x, pl.y), none)]
          = b.bfs pl (b.bfsFuel + e + 1) [(pl.x, pl.y)] [] [((pl.x, pl.y), none)] := rfl
        _ = b.bfs pl (b.bfsFuel + e) [(pl.x, pl.y)] [] [((pl.x, pl.y), none)] := this
        _ = _ := ihe
  refine ⟨?_, ?_, ?_⟩
  · intro p hp
    rw [hrun] at hp
    obtain ⟨h1, h2, h3⟩ := hsome p hp
    exact ⟨h1, h2, fun q hq => h3 q hq.1 hq.2⟩
  · constructor
    · intro hp
      rw [hrun] at hp
      exact hnone hp
    · intro hno
      cases hp : b.find_shortest_path id with
      | none => rfl
      | some p =>
        obtain ⟨h1, h2, _⟩ := hsome p (by rw [← hrun]; exact hp)
        exact absurd ⟨p, h1, h2⟩ hno
  · intro fuel hfuel
    rw [Board.find_shortest_path_fuel, hpl, hrun]
    have : fuel = b.bfsFuel + (fuel - b.bfsFuel) := by omega
    rw [this]
    exact hstabAll (fuel - b.bfsFuel)

/-- On a board with no walls, a straight horizontal walk from any in-bounds
cell to column `g` is a valid path of `|x - g| + 1` cells. -/
theorem straight_path_x (b : Board) (hw : b.is_wall = fun _ _ => false) :
    ∀ (n : Nat) (x y g : Int), (x - g).natAbs = n →
    0 ≤ x → x < b.width → 0 ≤ y → y < b.height → 0 ≤ g → g < b.width →
    ∃ q : List Coord, q.head? = some (x, y) ∧ List.Chain' adjacent q ∧
      (∀ c ∈ q.tail, freeCell b c) ∧ q.getLast? = some (g, y) ∧ q.length = n + 1 := by
  intro n
  induction n with
  | zero =>
    intro x y g h0 _ _ _ _ _ _
    have hxg : x = g := by omega
    subst hxg
    exact ⟨[(x, y)], rfl, List.chain'_singleton _, by simp, rfl, rfl⟩
  | succ m ihm =>
    intro x y g h0 hx0 hxw hy0 hyh hg0 hgw
    by_cases hlt : x < g
    · obtain ⟨q', hh', hch', htl', hl', hlen'⟩ :=
        ihm (x + 1) y g (by omega) (by omega) (by omega) hy0 hyh hg0 hgw
      cases q' with
      | nil => simp at hh'
      | cons a rest =>
        simp only [List.head?_cons, Option.some.injEq] at hh'
        refine ⟨(x, y) :: a :: rest, rfl, ?_, ?_, ?_, ?_⟩
        · rw [List.chain'_cons]
          refine ⟨?_, hch'⟩
          rw [hh']
          exact Or.inl rfl
        · intro c hc
          simp only [List.tail_cons] at hc
          rcases List.mem_cons.mp hc with he | ht
          · rw [he, hh']
            refine ⟨?_, by rw [hw]⟩
            rw [Board.cell_exist]
            simp only [Bool.and_eq_true, decide_eq_true_eq]
            omega
          · exact htl' c ht
        · rw [List.getLast?_cons_cons]
          exact hl'
        · simp only [List.length_cons] at hlen' ⊢
          omega
    · obtain ⟨q', hh', hch', htl', hl', hlen'⟩ :=
        ihm (x - 1) y g (by omega) (by omega) (by omega) hy0 hyh hg0 hgw
      cases q' with
      | nil => simp at hh'
      | cons a rest =>
        simp only [List.head?_cons, Option.some.injEq] at hh'
        refine ⟨(x, y) :: a :: rest, rfl, ?_, ?_, ?_, ?_⟩
        · rw [List.chain'_cons]
          refine ⟨?_, hch'⟩
          rw [hh']
          exact Or.inr (Or.inr (Or.inl rfl))
        · intro c hc
          simp only [List.tail_cons] at hc
          rcases List.mem_cons.mp hc with he | ht
          · rw [he, hh']
            refine ⟨?_, by rw [hw]⟩
            rw [Board.cell_exist]
            simp only [Bool.and_eq_true, decide_eq_true_eq]
            omega
          · exact htl' c ht
        · rw [List.getLast?_cons_cons]
          exact hl'
        · simp only [List.length_cons] at hlen' ⊢
          omega

/-- On a board with no walls, a straight vertical walk from any in-bounds
cell to row `g` is a valid path of `|y - g| + 1` cells. -/
theorem straight_path_y (b : Board) (hw : b.is_wall = fun _ _ => false) :
    ∀ (n : Nat) (x y g : Int), (y - g).natAbs = n →
    0 ≤ x → x < b.width → 0 ≤ y → y < b.height → 0 ≤ g → g < b.height →
    ∃ q : List Coord, q.head? = some (x, y) ∧ List.Chain' adjacent q ∧
      (∀ c ∈ q.tail, freeCell b c) ∧ q.getLast? = some (x, g) ∧ q.length = n + 1 := by
  intro n
  induction n with
  | zero =>
    intro x y g h0 _ _ _ _ _ _
    have hyg : y = g := by omega
    subst hyg
    exact ⟨[(x, y)], rfl, List.chain'_singleton _, by simp, rfl, rfl⟩
  | succ m ihm =>
    intro x y g h0 hx0 hxw hy0 hyh hg0 hgh
    by_cases hlt : y < g
    · obtain ⟨q', hh', hch', htl', hl', hlen'⟩ :=
        ihm x (y + 1) g (by omega) hx0 hxw (by omega) (by omega) hg0 hgh
      cases q' with
      | nil => simp at hh'
      | cons a rest =>
        simp only [List.head?_cons, Option.some.injEq] at hh'
        refine ⟨(x, y) :: a :: rest, rfl, ?_, ?_, ?_, ?_⟩
        · rw [List.chain'_cons]
          refine ⟨?_, hch'⟩
          rw [hh']
          exact Or.inr (Or.inl rfl)
        · intro c hc
          simp only [List.tail_cons] at hc
          rcases List.mem_cons.mp hc with he | ht
          · rw [he, hh']
            refine ⟨?_, by rw [hw]⟩
            rw [Board.cell_exist]
            simp only [Bool.and_eq_true, decide_eq_true_eq]
            omega
          · exact htl' c ht
        · rw [List.getLast?_cons_cons]
          exact hl'
        · simp only [List.length_cons] at hlen' ⊢
          omega
    · obtain ⟨q', hh', hch', htl', hl', hlen'⟩ :=
        ihm x (y - 1) g (by omega) hx0 hxw (by omega) (by omega) hg0 hgh
      cases q' with
      | nil => simp at hh'
      | cons a rest =>
        simp only [List.head?_cons, Option.some.injEq] at hh'
        refine ⟨(x, y) :: a :: rest, rfl, ?_, ?_, ?_, ?_⟩
        · rw [List.chain'_cons]
          refine ⟨?_, hch'⟩
          rw [hh']
          exact Or.inr (Or.inr (Or.inr rfl))
        · intro c hc
          simp only [List.tail_cons] at hc
          rcases List.mem_cons.mp hc with he | ht
          · rw [he, hh']
            refine ⟨?_, by rw [hw]⟩
            rw [Board.cell_exist]
            simp only [Bool.and_eq_true, decide_eq_true_eq]
            omega
          · exact htl' c ht
        · rw [List.getLast?_cons_cons]
          exact hl'
        · simp only [List.length_cons] at hlen' ⊢
          omega

/-- The Manhattan distance to the player's goal boundary line (the quantity
named by the spec's no-wall shortest-path property). -/
def goalLineDist (pl : Player) : Nat :=
  match pl.x_goal with
  | some g => (pl.x - g).natAbs
  | none =>
    match pl.y_goal with
    | some g => (pl.y - g).natAbs
    | none => 0

/-- Any goal path of a column-goal player has at least `|x - g| + 1` cells. -/
theorem goalPath_length_ge_x {b : Board} {pl : Player} {g : Int}
    (hxg : pl.x_goal = some g) (hyg : pl.y_goal = none) :
    ∀ q, GoalPath b pl q → (pl.x - g).natAbs + 1 ≤ q.length := by
  rintro q ⟨⟨hh, hch, _⟩, g', hl, hG⟩
  have hg1 : g'.1 = g := by
    rw [isGoal, hxg, hyg] at hG
    simp only [Bool.or_false] at hG
    exact eq_of_beq hG
  have hdist := chain_dist_le q (pl.x, pl.y) g' hch hh hl
  rw [euclidean_dist] at hdist
  simp only at hdist
  rw [hg1] at hdist
  omega

/-- Any goal path of a row-goal player has at least `|y - g| + 1` cells. -/
theorem goalPath_length_ge_y {b : Board} {pl : Player} {g : Int}
    (hxg : pl.x_goal = none) (hyg : pl.y_goal = some g) :
    ∀ q, GoalPath b pl q → (pl.y - g).natAbs + 1 ≤ q.length := by
  rintro q ⟨⟨hh, hch, _⟩, g', hl, hG⟩
  have hg2 : g'.2 = g := by
    rw [isGoal, hxg, hyg] at hG
    simp only [Bool.false_or] at hG
    exact eq_of_beq hG
  have hdist := chain_dist_le q (pl.x, pl.y) g' hch hh hl
  rw [euclidean_dist] at hdist
  simp only at hdist
  rw [hg2] at hdist
  omega

/-! ## Concrete game scenarios -/

/-- The spec's 9×9 two-player scenario: player 0 at `(4, 8)`, player 1 at
`(4, 0)`, ten walls each, no walls placed. -/
def scenario9 : Board :=
  ((Board.init 9 9 2).update_player 0 4 8 10).update_player 1 4 0 10

/-- A 5×5 three-player position with the wall pair `(3,2)-(4,2)` placed:
player 0 at `(2, 2)`, player 1 at `(4, 2)`, player 2 at `(1, 0)`. -/
def scenario5 : Board :=
  ((((Board.init 5 5 3).update_player 0 2 2 10).update_player 1 4 2 10).update_player
    2 1 0 10).add_wall 3 2 "H"

/-- A 3×1 two-player corridor: player 0 at `(0, 0)`, player 1 at `(1, 0)`
standing on the only route to player 0's goal column. -/
def scenario3 : Board :=
  ((Board.init 3 1 2).update_player 0 0 0 10).update_player 1 1 0 10

/-- A 2×2 board whose right column is walled off, leaving player 0 at
`(0, 0)` with no route to its goal column. -/
def scenario2 : Board :=
  (((Board.init 2 2 2).update_player 0 0 0 10).add_wall 1 0 "V").add_wall 1 1 "V"

/-! ## List helper lemmas for the occupancy claims -/

theorem get?_set_self' {α : Type} : ∀ (l : List α) (i : Nat) (a : α), i < l.length →
    (l.set i a).get? i = some a := by
  intro l
  induction l with
  | nil => intro i a h; simp at h
  | cons x t ih =>
    intro i a h
    cases i with
    | zero => rfl
    | succ j =>
      simp only [List.set_cons_succ, List.get?_cons_succ]
      exact ih j a (by simpa using h)

theorem get?_set_ne' {α : Type} : ∀ (l : List α) (i j : Nat) (a : α), i ≠ j →
    (l.set i a).get? j = l.get? j := by
  intro l
  induction l with
  | nil => intro i j a _; simp
  | cons x t ih =>
    intro i j a h
    cases i with
    | zero =>
      cases j with
      | zero => exact absurd rfl h
      | succ j' => rfl
    | succ i' =>
      cases j with
      | zero => rfl
      | succ j' =>
        simp only [List.set_cons_succ, List.get?_cons_succ]
        exact ih i' j' a (fun he => h (by rw [he]))

/-- The occupancy invariant: each valid player id occurs in occupant lists
only at that player's recorded cell, and there at most once. -/
def OccInv (b : Board) : Prop :=
  ∀ id pl, b.players.get? id = some pl →
    ∀ a c, List.count id (b.occupants a c) ≤ (if a = pl.x ∧ c = pl.y then 1 else 0)

theorem occInv_init (w h : Int) (n : Nat) : OccInv (Board.init w h n) := by
  intro id pl _ a c
  rw [show (Board.init w h n).occupants a c = [] from rfl]
  simp

/-- Explicit form of `update_player` for a valid id. -/
theorem update_player_eq (b : Board) (uid : Nat) (x y wl : Int) (pl : Player)
    (hu : b.players.get? uid = some pl) :
    b.update_player uid x y wl = Board.mk b.width b.height b.is_wall
      (fun a c =>
        if a = x ∧ c = y then
          (if a = pl.x ∧ c = pl.y then (b.occupants pl.x pl.y).erase uid
           else b.occupants a c) ++ [uid]
        else
          (if a = pl.x ∧ c = pl.y then (b.occupants pl.x pl.y).erase uid
           else b.occupants a c))
      (b.players.set uid (Player.mk pl.id x y wl pl.x_goal pl.y_goal)) := by
  simp only [Board.update_player, hu]

/-- Applying `update_player` with an out-of-range id leaves the board unchanged
(the embedded form of Python's index error case). -/
theorem update_player_none (b : Board) (uid : Nat) (x y wl : Int)
    (hu : b.players.get? uid = none) :
    b.update_player uid x y wl = b := by
  simp only [Board.update_player, hu]

theorem occInv_update (b : Board) (uid : Nat) (x y wl : Int) (hinv : OccInv b) :
    OccInv (b.update_player uid x y wl) := by
  cases hu : b.players.get? uid with
  | none => rw [update_player_none b uid x y wl hu]; exact hinv
  | some pl =>
    rw [update_player_eq b uid x y wl pl hu]
    intro id pl2 hpl2 a c
    by_cases hid : id = uid
    · subst hid
      have hpl2' : pl2 = Player.mk pl.id x y wl pl.x_goal pl.y_goal := by
        have hlt : id < b.players.length := (List.get?_eq_some.mp hu).1
        rw [show (Board.mk b.width b.height b.is_wall _
            (b.players.set id (Player.mk pl.id x y wl pl.x_goal pl.y_goal))).players
            = b.players.set id (Player.mk pl.id x y wl pl.x_goal pl.y_goal) from rfl] at hpl2
        rw [get?_set_self' b.players id _ hlt] at hpl2
        exact (Option.some.injEq _ _ ▸ hpl2).symm
      subst hpl2'
      change List.count id _ ≤ if a = x ∧ c = y then 1 else 0
      have hbase : List.count id
          (if a = pl.x ∧ c = pl.y then (b.occupants pl.x pl.y).erase id
           else b.occupants a c) = 0 := by
        by_cases hold : a = pl.x ∧ c = pl.y
        · rw [if_pos hold, List.count_erase_self]
          have := hinv id pl hu pl.x pl.y
          rw [if_pos ⟨rfl, rfl⟩] at this
          omega
        · rw [if_neg hold]
          have := hinv id pl hu a c
          rw [if_neg hold] at this
          omega
      by_cases hac : a = x ∧ c = y
      · simp only [if_pos hac, List.count_append, hbase]
        simp
      · simp only [if_neg hac, hbase]
        omega
    · have hpl2' : b.players.get? id = some pl2 := by
        rw [show (Board.mk b.width b.height b.is_wall _
            (b.players.set uid (Player.mk pl.id x y wl pl.x_goal pl.y_goal))).players
            = b.players.set uid (Player.mk pl.id x y wl pl.x_goal pl.y_goal) from rfl] at hpl2
        rw [get?_set_ne' b.players uid id _ (fun he => hid he.symm)] at hpl2
        exact hpl2
      have huid0 : List.count id [uid] = 0 := by
        rw [List.count_eq_zero]
        simp only [List.mem_singleton]
        exact hid
      have hcount : List.count id
          ((fun a c =>
            if a = x ∧ c = y then
              (if a = pl.x ∧ c = pl.y then (b.occupants pl.x pl.y).erase uid
               else b.occupants a c) ++ [uid]
            else
              (if a = pl.x ∧ c = pl.y then (b.occupants pl.x pl.y).erase uid
               else b.occupants a c)) a c) = List.count id (b.occupants a c) := by
        simp only
        have hinner : List.count id
            (if a = pl.x ∧ c = pl.y then (b.occupants pl.x pl.y).erase uid
             else b.occupants a c) = List.count id (b.occupants a c) := by
          by_cases hold : a = pl.x ∧ c = pl.y
          · rw [if_pos hold, List.count_erase_of_ne hid, hold.1, hold.2]
          · rw [if_neg hold]
        by_cases hac : a = x ∧ c = y
        · rw [if_pos hac, List.count_append, hinner, huid0]
          omega
        · rw [if_neg hac, hinner]
      change List.count id _ ≤ _
      rw [hcount]
      exact hinv id pl2 hpl2' a c

theorem occInv_wall (b : Board) (x y : Int) (o : String) (hinv : OccInv b) :
    OccInv (b.add_wall x y o) := hinv

/-- Boards reachable through the program's mutation entry points. -/
inductive ReachableB : Board → Prop where
  | init (w h : Int) (n : Nat) : ReachableB (Board.init w h n)
  | update {b : Board} (id : Nat) (x y wl : Int) :
      ReachableB b → ReachableB (b.update_player id x y wl)
  | wall {b : Board} (x y : Int) (o : String) :
      ReachableB b → ReachableB (b.add_wall x y o)

theorem occInv_of_reachable {b : Board} (h : ReachableB b) : OccInv b := by
  induction h with
  | init w hh n => exact occInv_init w hh n
  | update id x y wl _ ih => exact occInv_update _ id x y wl ih
  | wall x y o _ ih => exact occInv_wall _ x y o ih

/-- C6: `add_wall(x, y, orientation)` marks `(x, y)` as a wall, plus
`(x, y+1)` when the orientation is VERTICAL and `y+1` is in bounds, or
`(x+1, y)` when it is HORIZONTAL and `x+1` is in bounds; no other cell's
flag changes, the flag is monotonic (never reset), and calling `add_wall`
twice with identical arguments produces the same state as calling it
once. -/
theorem claim6_add_wall (b : Board) (x y : Int) (o : String) :
    (b.add_wall x y o).is_wall x y = true ∧
    (o = "V" → b.cell_exist x (y + 1) = true → (b.add_wall x y o).is_wall x (y + 1) = true) ∧
    (o = "H" → b.cell_exist (x + 1) y = true → (b.add_wall x y o).is_wall (x + 1) y = true) ∧
    (∀ a c, b.is_wall a c = true → (b.add_wall x y o).is_wall a c = true) ∧
    (∀ a c, (b.add_wall x y o).is_wall a c = true →
      b.is_wall a c = true ∨ (a = x ∧ c = y) ∨
        (o = "V" ∧ a = x ∧ c = y + 1) ∨ (o = "H" ∧ a = x + 1 ∧ c = y)) ∧
    (b.add_wall x y o).add_wall x y o = b.add_wall x y o := by
  refine ⟨?_, ?_, ?_, ?_, ?_, ?_⟩
  · show (if _ then true else _) = true
    rw [if_pos (Or.inl ⟨rfl, rfl⟩)]
  · intro hV hex
    rw [Board.cell_exist] at hex
    simp only [Bool.and_eq_true, decide_eq_true_eq] at hex
    show (if _ then true else _) = true
    rw [if_pos (Or.inr (Or.inl ⟨hV, hex.2, rfl, rfl⟩))]
  · intro hH hex
    rw [Board.cell_exist] at hex
    simp only [Bool.and_eq_true, decide_eq_true_eq] at hex
    show (if _ then true else _) = true
    rw [if_pos (Or.inr (Or.inr ⟨hH, hex.1.1.2, rfl, rfl⟩))]
  · intro a c hw
    show (if _ then true else _) = true
    by_cases h : (a = x ∧ c = y) ∨ (o = "V" ∧ y + 1 < b.height ∧ a = x ∧ c = y + 1) ∨
        (o = "H" ∧ x + 1 < b.width ∧ a = x + 1 ∧ c = y)
    · rw [if_pos h]
    · rw [if_neg h]; exact hw
  · intro a c hw
    by_cases h : (a = x ∧ c = y) ∨ (o = "V" ∧ y + 1 < b.height ∧ a = x ∧ c = y + 1) ∨
        (o = "H" ∧ x + 1 < b.width ∧ a = x + 1 ∧ c = y)
    · rcases h with h1 | h2 | h3
      · exact Or.inr (Or.inl h1)
      · exact Or.inr (Or.inr (Or.inl ⟨h2.1, h2.2.2⟩))
      · exact Or.inr (Or.inr (Or.inr ⟨h3.1, h3.2.2⟩))
    · left
      have : (b.add_wall x y o).is_wall a c = b.is_wall a c := by
        show (if _ then true else _) = _
        rw [if_neg h]
      rw [← this]; exact hw
  · show Board.mk _ _ _ _ _ = Board.mk _ _ _ _ _
    congr 1
    funext a c
    show (if _ then true else (if _ then true else b.is_wall a c)) =
      (if _ then true else b.is_wall a c)
    rw [show (b.add_wall x y o).height = b.height from rfl,
      show (b.add_wall x y o).width = b.width from rfl]
    by_cases h : (a = x ∧ c = y) ∨ (o = "V" ∧ y + 1 < b.height ∧ a = x ∧ c = y + 1) ∨
        (o = "H" ∧ x + 1 < b.width ∧ a = x + 1 ∧ c = y)
    · simp only [if_pos h]
    · simp only [if_neg h]

/-- C7: on every board the program can reach, calling `update_player`
twice with identical arguments yields the same board state as calling it
once, and leaves exactly one occupant reference for that player on the
cell at `(x, y)`; the removal from the previous cell is a no-op (via the
membership guard), not an error, when the reference is absent. -/
theorem claim7_update_idempotent (b : Board) (id : Nat) (pl : Player) (x y wl : Int)
    (hr : ReachableB b) (hpl : b.players.get? id = some pl) :
    (b.update_player id x y wl).update_player id x y wl = b.update_player id x y wl ∧
    List.count id ((b.update_player id x y wl).occupants x y) = 1 := by
  have hinv : OccInv b := occInv_of_reachable hr
  have hb1 := update_player_eq b id x y wl pl hpl
  have hcnt0 : List.count id
      (if x = pl.x ∧ y = pl.y then (b.occupants pl.x pl.y).erase id
       else b.occupants x y) = 0 := by
    by_cases hold : x = pl.x ∧ y = pl.y
    · rw [if_pos hold, List.count_erase_self]
      have := hinv id pl hpl pl.x pl.y
      rw [if_pos ⟨rfl, rfl⟩] at this
      omega
    · rw [if_neg hold]
      have := hinv id pl hpl x y
      rw [if_neg hold] at this
      omega
  have hnotmem : id ∉ (if x = pl.x ∧ y = pl.y then (b.occupants pl.x pl.y).erase id
      else b.occupants x y) := List.count_eq_zero.mp hcnt0
  constructor
  · have hlt : id < b.players.length := (List.get?_eq_some.mp hpl).1
    have hpl' : (b.update_player id x y wl).players.get? id =
        some (Player.mk pl.id x y wl pl.x_goal pl.y_goal) := by
      rw [hb1]
      exact get?_set_self' b.players id _ hlt
    have hb2 := update_player_eq (b.update_player id x y wl) id x y wl
      (Player.mk pl.id x y wl pl.x_goal pl.y_goal) hpl'
    rw [hb2, hb1]
    dsimp only
    congr 1
    · funext a c
      by_cases hac : a = x ∧ c = y
      · rw [hac.1, hac.2]
        simp only [eq_self_iff_true, and_self, if_true]
        rw [List.erase_append_right _ hnotmem, List.erase_cons_head, List.append_nil]
      · simp only [if_neg hac]
    · rw [List.set_set]
  · rw [hb1]
    show List.count id ((if x = x ∧ y = y then _ ++ [id] else _)) = 1
    rw [if_pos ⟨rfl, rfl⟩, List.count_append, hcnt0]
    simp

/-- C10: starting from a freshly initialized board and after any sequence
of `update_player` and `add_wall` calls, each player id appears in the
occupant list of at most one cell (necessarily the cell at the player's
stored coordinates), with at most one occurrence in that list. -/
theorem claim10_occupancy (b : Board) (hr : ReachableB b) :
    ∀ id pl, b.players.get? id = some pl →
      (∀ a c, id ∈ b.occupants a c → a = pl.x ∧ c = pl.y) ∧
      (∀ a c, List.count id (b.occupants a c) ≤ 1) := by
  have hinv := occInv_of_reachable hr
  intro id pl hpl
  constructor
  · intro a c hmem
    have h1 := hinv id pl hpl a c
    by_cases hac : a = pl.x ∧ c = pl.y
    · exact hac
    · rw [if_neg hac] at h1
      have := List.count_pos_iff.mpr hmem
      omega
  · intro a c
    have h1 := hinv id pl hpl a c
    by_cases hac : a = pl.x ∧ c = pl.y
    · rw [if_pos hac] at h1; exact h1
    · rw [if_neg hac] at h1; omega

/-- Every wall candidate produced by the blocking scan passed a
`_cell_exist` check, so it lies within grid bounds. -/
theorem blockScan_in_bounds (b : Board) (dic : List Coord) :
    ∀ (rest : List Coord) (prev : Coord) (x y : Int) (o : String),
      b.blockScan dic prev rest = some (x, y, o) → b.cell_exist x y = true := by
  intro rest
  induction rest with
  | nil =>
    intro prev x y o h
    simp [Board.blockScan] at h
  | cons cur t ih =>
    intro prev x y o h
    rw [Board.blockScan] at h
    by_cases hq : cur ∉ dic ∧ b.is_wall cur.1 cur.2 = false
    · rw [if_pos hq] at h
      by_cases hdir : cellCompare prev cur = "UP" ∨ cellCompare prev cur = "DOWN"
      · rw [if_pos hdir] at h
        by_cases h1 : b.cell_exist (cur.1 - 1) cur.2 = true
        · rw [if_pos h1] at h
          simp only [Option.some.injEq, Prod.mk.injEq] at h
          rw [← h.1, ← h.2.1]
          exact h1
        · rw [if_neg h1] at h
          by_cases h2 : b.cell_exist (cur.1 + 1) cur.2 = true
          · rw [if_pos h2] at h
            simp only [Option.some.injEq, Prod.mk.injEq] at h
            rw [← h.1, ← h.2.1]
            exact h2
          · rw [if_neg h2] at h
            exact ih cur x y o h
      · rw [if_neg hdir] at h
        by_cases h1 : b.cell_exist cur.1 (cur.2 - 1) = true
        · rw [if_pos h1] at h
          simp only [Option.some.injEq, Prod.mk.injEq] at h
          rw [← h.1, ← h.2.1]
          exact h1
        · rw [if_neg h1] at h
          by_cases h2 : b.cell_exist cur.1 (cur.2 + 1) = true
          · rw [if_pos h2] at h
            simp only [Option.some.injEq, Prod.mk.injEq] at h
            rw [← h.1, ← h.2.1]
            exact h2
          · rw [if_neg h2] at h
            exact ih cur x y o h
    · rw [if_neg hq] at h
      exact ih cur x y o h

/-- C3 (amended): every wall placement returned by `try_to_block_enemy`
lies within grid bounds (it passed `_cell_exist`); the placement may,
however, coincide with a cell on the acting player's own path, since only
the blocked enemy-path cell — not the anchor — is checked against that
path. -/
theorem claim3_amended (b : Board) (enemy_path my_path : List Coord)
    (x y : Int) (o : String)
    (h : b.try_to_block_enemy enemy_path my_path = some (x, y, o)) :
    b.cell_exist x y = true := by
  cases enemy_path with
  | nil => simp [Board.try_to_block_enemy] at h
  | cons e0 erest =>
    rw [Board.try_to_block_enemy] at h
    exact blockScan_in_bounds b (my_path.drop 1) erest e0 x y o h

/-- Characterization of the block-target selection fold: it returns `none`
exactly when no index qualifies, and otherwise the path of the largest
qualifying index (the last one scanned). -/
theorem selectEnemy_spec (paths : List (List Coord)) (my : Nat) :
    ∀ pc, (selectEnemy paths pc my = none ↔ ∀ i, i < pc → ¬ blockQual paths my i) ∧
      (∀ ep, selectEnemy paths pc my = some ep →
        ∃ j, j < pc ∧ blockQual paths my j ∧ ep = paths.getD j [] ∧
          ∀ i, i < pc → blockQual paths my i → i ≤ j) := by
  intro pc
  induction pc with
  | zero =>
    constructor
    · simp [selectEnemy]
    · intro ep hep
      simp [selectEnemy] at hep
  | succ n ihn =>
    have hfold : selectEnemy paths (n + 1) my =
        (if blockQual paths my n then some (paths.getD n []) else selectEnemy paths n my) := by
      rw [selectEnemy, List.range_succ, List.foldl_append]
      rfl
    by_cases hq : blockQual paths my n
    · rw [hfold, if_pos hq]
      constructor
      · constructor
        · intro h; simp at h
        · intro hall; exact absurd hq (hall n (Nat.lt_succ_self n))
      · intro ep hep
        simp only [Option.some.injEq] at hep
        refine ⟨n, Nat.lt_succ_self n, hq, hep.symm, ?_⟩
        intro i hi _
        omega
    · rw [hfold, if_neg hq]
      obtain ⟨ih1, ih2⟩ := ihn
      constructor
      · rw [ih1]
        constructor
        · intro hall i hi
          by_cases hin : i < n
          · exact hall i hin
          · have : i = n := by omega
            rw [this]; exact hq
        · intro hall i hi
          exact hall i (by omega)
      · intro ep hep
        obtain ⟨j, hj, hjq, hje, hmax⟩ := ih2 ep hep
        refine ⟨j, by omega, hjq, hje, ?_⟩
        intro i hi hqi
        rcases (by omega : i < n ∨ i = n) with h | h
        · exact hmax i h hqi
        · rw [h] at hqi; exact absurd hqi hq

/-- C4: the decision logic targets an opponent whose path is strictly
shorter, or of equal length with a lower id; among several qualifiers the
last-scanned (highest id) is retained; a blocking wall is attempted (and
emitted) only when such a target exists and the acting player's wall
resource is positive; otherwise a single-step direction token is
emitted. -/
theorem claim4_selection (b : Board) (paths : List (List Coord)) (my : Nat) :
    (selectEnemy paths b.players.length my = none ↔
      ∀ i, i < b.players.length → ¬ blockQual paths my i) ∧
    (∀ ep, selectEnemy paths b.players.length my = some ep →
      ∃ j, j < b.players.length ∧ j ≠ my ∧ blockQual paths my j ∧ ep = paths.getD j [] ∧
        ∀ i, i < b.players.length → blockQual paths my i → i ≤ j) ∧
    (∀ x y o, decideAction b paths my = some (BotAction.wall x y o) →
      ∃ ep, selectEnemy paths b.players.length my = some ep ∧ ep ≠ [] ∧
        (b.players.getD my (Player.mk 0 0 0 0 none none)).walls_left > 0 ∧
        b.try_to_block_enemy ep (paths.getD my []) = some (x, y, o)) ∧
    ((selectEnemy paths b.players.length my = none ∨
        ¬ (b.players.getD my (Player.mk 0 0 0 0 none none)).walls_left > 0) →
      ∀ nc pl, (paths.getD my []).get? 1 = some nc → b.players.get? my = some pl →
        decideAction b paths my = some (BotAction.move (cellCompare (pl.x, pl.y) nc))) := by
  obtain ⟨h1, h2⟩ := selectEnemy_spec paths my b.players.length
  refine ⟨h1, ?_, ?_, ?_⟩
  · intro ep hep
    obtain ⟨j, hj, hjq, hje, hmax⟩ := h2 ep hep
    refine ⟨j, hj, ?_, hjq, hje, hmax⟩
    rcases hjq with ⟨hne, _⟩ | ⟨_, hlt⟩
    · exact hne
    · omega
  · intro x y o hact
    rw [decideAction] at hact
    cases hsel : selectEnemy paths b.players.length my with
    | none =>
      rw [hsel] at hact
      simp only at hact
      cases hnc : (paths.getD my []).get? 1 with
      | none => rw [hnc] at hact; simp at hact
      | some nc =>
        rw [hnc] at hact
        cases hpl : b.players.get? my with
        | none => rw [hpl] at hact; simp at hact
        | some pl => rw [hpl] at hact; simp at hact
    | some ep =>
      rw [hsel] at hact
      simp only at hact
      by_cases hcond : ep ≠ [] ∧ (b.players.getD my (Player.mk 0 0 0 0 none none)).walls_left > 0
      · rw [if_pos hcond] at hact
        cases htry : b.try_to_block_enemy ep (paths.getD my []) with
        | none =>
          rw [htry] at hact
          cases hnc : (paths.getD my []).get? 1 with
          | none => rw [hnc] at hact; simp at hact
          | some nc =>
            rw [hnc] at hact
            cases hpl : b.players.get? my with
            | none => rw [hpl] at hact; simp at hact
            | some pl => rw [hpl] at hact; simp at hact
        | some w =>
          rw [htry] at hact
          obtain ⟨wx, wy, wo⟩ := w
          simp only [Option.some.injEq, BotAction.wall.injEq] at hact
          refine ⟨ep, rfl, hcond.1, hcond.2, ?_⟩
          rw [htry, hact.1, hact.2.1, hact.2.2]
      · rw [if_neg hcond] at hact
        cases hnc : (paths.getD my []).get? 1 with
        | none => rw [hnc] at hact; simp at hact
        | some nc =>
          rw [hnc] at hact
          cases hpl : b.players.get? my with
          | none => rw [hpl] at hact; simp at hact
          | some pl => rw [hpl] at hact; simp at hact
  · intro hno nc pl hnc hpl
    rw [decideAction]
    cases hsel : selectEnemy paths b.players.length my with
    | none =>
      simp only
      rw [hnc, hpl]
    | some ep =>
      rcases hno with hnone | hwl
      · rw [hsel] at hnone; exact absurd hnone (by simp)
      · simp only
        rw [if_neg (fun hc => hwl hc.2), hnc, hpl]

/-- The BFS loop never reads cell occupancy: replacing the occupant map
leaves every run of the loop unchanged. -/
theorem bfs_occ_irrelevant (b : Board) (occ : Int → Int → List Nat) (pl : Player) :
    ∀ (fuel : Nat) (cur nxt : List Coord) (found : List (Coord × Option Coord)),
      (Board.mk b.width b.height b.is_wall occ b.players).bfs pl fuel cur nxt found
        = b.bfs pl fuel cur nxt found := by
  intro fuel
  induction fuel with
  | zero => intro cur nxt found; rfl
  | succ f ih =>
    intro cur nxt found
    cases cur with
    | nil => rfl
    | cons c0 cur' =>
      rw [bfs_cons, bfs_cons]
      by_cases hg : isGoal pl c0 = true
      · rw [if_pos hg, if_pos hg]
      · rw [if_neg hg, if_neg hg]
        rw [show (Board.mk b.width b.height b.is_wall occ b.players).cell_neighbours c0 false
          = b.cell_neighbours c0 false from rfl]
        by_cases hce : cur'.isEmpty = true
        · rw [if_pos hce, if_pos hce, ih]
        · rw [if_neg hce, if_neg hce, ih]

/-- The shortest-path search never reads cell occupancy. -/
theorem find_shortest_path_occ_irrelevant (b : Board) (occ : Int → Int → List Nat)
    (id : Nat) :
    (Board.mk b.width b.height b.is_wall occ b.players).find_shortest_path id
      = b.find_shortest_path id := by
  rw [Board.find_shortest_path, Board.find_shortest_path, Board.find_shortest_path_fuel,
    Board.find_shortest_path_fuel]
  show (match b.players.get? id with
    | none => none
    | some pl => (Board.mk b.width b.height b.is_wall occ b.players).bfs pl
        (Board.mk b.width b.height b.is_wall occ b.players).bfsFuel
        [(pl.x, pl.y)] [] [((pl.x, pl.y), none)]) = _
  cases hpl : b.players.get? id with
  | none => rfl
  | some pl =>
    show (Board.mk b.width b.height b.is_wall occ b.players).bfs pl b.bfsFuel
        [(pl.x, pl.y)] [] [((pl.x, pl.y), none)] = _
    rw [bfs_occ_irrelevant]

/-- C1 (counterexample): on the 3×1 corridor, the cell `(1, 0)` is occupied
by player 1 (so `is_free` is false there), yet player 0's search returns a
path that passes through it — occupancy does not block the search the way
a wall does, contradicting the claim. -/
theorem claim1_counterexample :
    scenario3.find_shortest_path 0 = some [(0, 0), (1, 0), (2, 0)] ∧
    scenario3.occupants 1 0 = [1] ∧
    is_free scenario3 (1, 0) = false ∧
    ((1 : Int), (0 : Int)) ∈ ([((0 : Int), (0 : Int)), (1, 0), (2, 0)] : List Coord).tail := by
  refine ⟨by decide, by decide, by decide, by decide⟩

/-- C1 (amended): the search treats wall cells as non-traversable (every
cell after the root of a returned path exists and is not a wall) and is
entirely insensitive to occupancy (replacing the occupant map does not
change its result); the root is enqueued unconditionally, so the returned
path always starts at the player's own cell. -/
theorem claim1_occupancy_blocking (b : Board) (occ : Int → Int → List Nat)
    (id : Nat) (pl : Player) (p : List Coord)
    (hpl : b.players.get? id = some pl) (hp : b.find_shortest_path id = some p) :
    (Board.mk b.width b.height b.is_wall occ b.players).find_shortest_path id
      = b.find_shortest_path id ∧
    p.head? = some (pl.x, pl.y) ∧
    (∀ c ∈ p.tail, b.cell_exist c.1 c.2 = true ∧ b.is_wall c.1 c.2 = false) := by
  refine ⟨find_shortest_path_occ_irrelevant b occ id, ?_, ?_⟩
  · exact ((find_shortest_path_spec b id pl hpl).1 p hp).1.1
  · exact ((find_shortest_path_spec b id pl hpl).1 p hp).1.2.2

theorem claim1_occupancy_blocking_witness :
    (Board.mk scenario3.width scenario3.height scenario3.is_wall (fun _ _ => [])
        scenario3.players).find_shortest_path 0 = scenario3.find_shortest_path 0 ∧
    ([((0 : Int), (0 : Int)), (1, 0), (2, 0)] : List Coord).head? = some (0, 0) ∧
    (∀ c ∈ ([((0 : Int), (0 : Int)), (1, 0), (2, 0)] : List Coord).tail,
      scenario3.cell_exist c.1 c.2 = true ∧ scenario3.is_wall c.1 c.2 = false) :=
  claim1_occupancy_blocking scenario3 (fun _ _ => []) 0
    (Player.mk 0 0 0 10 (some 2) none) [(0, 0), (1, 0), (2, 0)] (by decide) (by decide)

/-- C2 (counterexample): in the 9×9 two-player scenario the code's goal
table assigns player 0 the rightmost column (x = 8), not row 0: the
computed path is the horizontal segment of length 5 and the emitted token
is "RIGHT", not the claimed vertical column of length 9 with "UP". -/
theorem claim2_counterexample :
    scenario9.find_shortest_path 0 = some [(4, 8), (5, 8), (6, 8), (7, 8), (8, 8)] ∧
    ((scenario9.find_shortest_path 0).getD []).length = 5 ∧
    ((5 : Nat) = 9 → False) ∧
    decideTurn scenario9 0 = some (BotAction.move "RIGHT") ∧
    (BotAction.move "RIGHT" = BotAction.move "UP" → False) := by
  refine ⟨by decide, by decide, by decide, by decide, by decide⟩

/-- C2 (amended): in the 9×9 scenario, player 0's goal is column 8 (the
first entry of the goal table), the computed shortest path is the straight
horizontal segment from `(4, 8)` to `(8, 8)` of length 5, and the decision
logic emits "RIGHT". -/
theorem claim2_scenario :
    scenario9.players.get? 0 = some (Player.mk 0 4 8 10 (some 8) none) ∧
    scenario9.players.get? 1 = some (Player.mk 1 4 0 10 (some 0) none) ∧
    scenario9.find_shortest_path 0 = some [(4, 8), (5, 8), (6, 8), (7, 8), (8, 8)] ∧
    ((scenario9.find_shortest_path 0).getD []).length = 5 ∧
    decideTurn scenario9 0 = some (BotAction.move "RIGHT") := by
  refine ⟨by decide, by decide, by decide, by decide, by decide⟩

/-- C3 (counterexample): in the 5×5 three-player position, the blocking
heuristic — invoked by the real turn flow for acting player 2 against
player 0's path — returns the wall placement `(1, 3, "H")`, whose anchor
cell `(1, 3)` lies on player 2's own path. -/
theorem claim3_counterexample :
    scenario5.find_shortest_path 2 = some [(1, 0), (1, 1), (1, 2), (1, 3), (1, 4)] ∧
    scenario5.find_shortest_path 0 = some [(2, 2), (2, 3), (3, 3), (4, 3)] ∧
    scenario5.try_to_block_enemy [(2, 2), (2, 3), (3, 3), (4, 3)]
      [(1, 0), (1, 1), (1, 2), (1, 3), (1, 4)] = some (1, 3, "H") ∧
    decideTurn scenario5 2 = some (BotAction.wall 1 3 "H") ∧
    ((1 : Int), (3 : Int)) ∈ ([(1, 0), (1, 1), (1, 2), (1, 3), (1, 4)] : List Coord) := by
  refine ⟨by decide, by decide, by decide, by decide, by decide⟩

theorem claim3_amended_witness : scenario5.cell_exist 1 3 = true :=
  claim3_amended scenario5 [(2, 2), (2, 3), (3, 3), (4, 3)]
    [(1, 0), (1, 1), (1, 2), (1, 3), (1, 4)] 1 3 "H" (by decide)

/-- The per-player paths of the 5×5 three-player position, as the turn
loop computes them. -/
def paths5 : List (List Coord) :=
  [[(2, 2), (2, 3), (3, 3), (4, 3)],
   [(4, 2), (4, 3), (3, 3), (2, 3), (1, 3), (0, 3)],
   [(1, 0), (1, 1), (1, 2), (1, 3), (1, 4)]]

theorem claim4_selection_witness :
    ∃ ep, selectEnemy paths5 scenario5.players.length 2 = some ep ∧ ep ≠ [] ∧
      (scenario5.players.getD 2 (Player.mk 0 0 0 0 none none)).walls_left > 0 ∧
      scenario5.try_to_block_enemy ep (paths5.getD 2 []) = some (1, 3, "H") :=
  (claim4_selection scenario5 paths5 2).2.2.1 1 3 "H" (by decide)

/-- C5: for any successful search, consecutive cells of the returned
sequence are 4-directionally adjacent, the first element is the player's
current position, and the last element satisfies the player's goal
condition. -/
theorem claim5_path_reconstruction (b : Board) (id : Nat) (pl : Player) (p : List Coord)
    (hpl : b.players.get? id = some pl) (hp : b.find_shortest_path id = some p) :
    List.Chain' adjacent p ∧ p.head? = some (pl.x, pl.y) ∧
    ∃ g, p.getLast? = some g ∧ isGoal pl g = true := by
  obtain ⟨⟨hh, hch, _⟩, hgl, _⟩ := (find_shortest_path_spec b id pl hpl).1 p hp
  exact ⟨hch, hh, hgl⟩

theorem claim5_path_reconstruction_witness :
    List.Chain' adjacent ([(0, 0), (1, 0), (2, 0)] : List Coord) ∧
    ([(0, 0), (1, 0), (2, 0)] : List Coord).head? = some (0, 0) ∧
    ∃ g, ([(0, 0), (1, 0), (2, 0)] : List Coord).getLast? = some g ∧
      isGoal (Player.mk 0 0 0 10 (some 2) none) g = true :=
  claim5_path_reconstruction scenario3 0 (Player.mk 0 0 0 10 (some 2) none)
    [(0, 0), (1, 0), (2, 0)] (by decide) (by decide)

theorem claim6_add_wall_witness :
    ((Board.init 4 4 2).add_wall 1 1 "V").is_wall 1 1 = true :=
  (claim6_add_wall (Board.init 4 4 2) 1 1 "V").1

theorem claim7_update_idempotent_witness :
    ((Board.init 3 3 2).update_player 0 1 2 4).update_player 0 1 2 4
      = (Board.init 3 3 2).update_player 0 1 2 4 ∧
    List.count 0 (((Board.init 3 3 2).update_player 0 1 2 4).occupants 1 2) = 1 :=
  claim7_update_idempotent (Board.init 3 3 2) 0 (Player.mk 0 0 0 0 (some 2) none) 1 2 4
    (ReachableB.init 3 3 2) (by decide)

/-- C8: for every board and valid player id, if no goal-satisfying cell is
reachable then the search returns an absent result — and conversely; the
result is moreover unchanged by granting the loop any extra fuel, so the
search terminates rather than looping (and no exception path exists in the
embedding). -/
theorem claim8_no_path (b : Board) (id : Nat) (pl : Player)
    (hpl : b.players.get? id = some pl) :
    (b.find_shortest_path id = none ↔ ¬ ∃ q, GoalPath b pl q) ∧
    (∀ fuel, b.bfsFuel ≤ fuel → b.find_shortest_path_fuel id fuel = b.find_shortest_path id) := by
  obtain ⟨_, h2, h3⟩ := find_shortest_path_spec b id pl hpl
  exact ⟨h2, h3⟩

theorem claim8_no_path_witness :
    ¬ ∃ q, GoalPath scenario2 (Player.mk 0 0 0 10 (some 1) none) q :=
  ((claim8_no_path scenario2 0 (Player.mk 0 0 0 10 (some 1) none) (by decide)).1).mp
    (by decide)

/-- C9 (counterexample): on the wall-free 9×9 board, player 0's path has
5 cells while the Manhattan distance from `(4, 8)` to the goal column
x = 8 is 4 — the path's length (cell count) is not equal to the Manhattan
distance, but exceeds it by one. -/
theorem claim9_counterexample :
    scenario9.is_wall = (fun _ _ => false) ∧
    scenario9.players.get? 0 = some (Player.mk 0 4 8 10 (some 8) none) ∧
    scenario9.find_shortest_path 0 = some [(4, 8), (5, 8), (6, 8), (7, 8), (8, 8)] ∧
    goalLineDist (Player.mk 0 4 8 10 (some 8) none) = 4 ∧
    ((scenario9.find_shortest_path 0).getD []).length = 5 ∧
    ((5 : Nat) = 4 → False) := by
  refine ⟨rfl, by decide, by decide, by decide, by decide, by decide⟩

/-- C9 (amended): for every board with no walls and every player standing
in bounds with one of the four goal lines of the goal table, the search
succeeds and the returned sequence has exactly the Manhattan distance to
the goal line plus one cells (both endpoints included). -/
theorem claim9_no_wall_distance (b : Board) (id : Nat) (pl : Player)
    (hpl : b.players.get? id = some pl)
    (hw : b.is_wall = fun _ _ => false)
    (hx0 : 0 ≤ pl.x) (hxw : pl.x < b.width) (hy0 : 0 ≤ pl.y) (hyh : pl.y < b.height)
    (hgoal : ((pl.x_goal = some (b.width - 1) ∨ pl.x_goal = some 0) ∧ pl.y_goal = none) ∨
      ((pl.y_goal = some (b.height - 1) ∨ pl.y_goal = some 0) ∧ pl.x_goal = none)) :
    ∃ p, b.find_shortest_path id = some p ∧ p.length = goalLineDist pl + 1 := by
  obtain ⟨hsome, hnone, _⟩ := find_shortest_path_spec b id pl hpl
  have hex : ∃ q, GoalPath b pl q ∧ q.length = goalLineDist pl + 1 ∧
      (∀ r, GoalPath b pl r → goalLineDist pl + 1 ≤ r.length) := by
    rcases hgoal with ⟨hxg, hyg⟩ | ⟨hyg, hxg⟩
    · have hgb : ∃ g, pl.x_goal = some g ∧ 0 ≤ g ∧ g < b.width := by
        rcases hxg with h | h
        · exact ⟨b.width - 1, h, by omega, by omega⟩
        · exact ⟨0, h, le_refl 0, by omega⟩
      obtain ⟨g, hg, hg0, hgw⟩ := hgb
      obtain ⟨q, hh, hch, htl, hl, hlen⟩ :=
        straight_path_x b hw ((pl.x - g).natAbs) pl.x pl.y g rfl hx0 hxw hy0 hyh hg0 hgw
      refine ⟨q, ⟨⟨hh, hch, htl⟩, (g, pl.y), hl, ?_⟩, ?_, ?_⟩
      · rw [isGoal, hg]; simp
      · rw [hlen, goalLineDist, hg]
      · intro r hr
        have := goalPath_length_ge_x hg hyg r hr
        rw [goalLineDist, hg]
        exact this
    · have hgb : ∃ g, pl.y_goal = some g ∧ 0 ≤ g ∧ g < b.height := by
        rcases hyg with h | h
        · exact ⟨b.height - 1, h, by omega, by omega⟩
        · exact ⟨0, h, le_refl 0, by omega⟩
      obtain ⟨g, hg, hg0, hgh⟩ := hgb
      obtain ⟨q, hh, hch, htl, hl, hlen⟩ :=
        straight_path_y b hw ((pl.y - g).natAbs) pl.x pl.y g rfl hx0 hxw hy0 hyh hg0 hgh
      refine ⟨q, ⟨⟨hh, hch, htl⟩, (pl.x, g), hl, ?_⟩, ?_, ?_⟩
      · rw [isGoal, hg, hxg]; simp
      · rw [hlen, goalLineDist, hxg, hg]
      · intro r hr
        have := goalPath_length_ge_y hxg hg r hr
        rw [goalLineDist, hxg, hg]
        exact this
  obtain ⟨q, hq, hqlen, hmin⟩ := hex
  cases hp : b.find_shortest_path id with
  | none => exact absurd ⟨q, hq⟩ (hnone.mp hp)
  | some p =>
    obtain ⟨hvp, hgp, hopt⟩ := hsome p hp
    have h1 : p.length ≤ q.length := hopt q hq
    have h2 : goalLineDist pl + 1 ≤ p.length := hmin p ⟨hvp, hgp⟩
    exact ⟨p, rfl, by omega⟩

theorem claim9_no_wall_distance_witness :
    ∃ p, scenario9.find_shortest_path 0 = some p ∧
      p.length = goalLineDist (Player.mk 0 4 8 10 (some 8) none) + 1 :=
  claim9_no_wall_distance scenario9 0 (Player.mk 0 4 8 10 (some 8) none)
    (by decide) rfl (by decide) (by decide) (by decide) (by decide)
    (Or.inl ⟨Or.inl (by decide), rfl⟩)

theorem claim10_occupancy_witness :
    List.count 0 (((Board.init 3 3 2).update_player 0 1 2 4).occupants 1 2) ≤ 1 :=
  ((claim10_occupancy ((Board.init 3 3 2).update_player 0 1 2 4)
      (ReachableB.update 0 1 2 4 (ReachableB.init 3 3 2)) 0
      (Player.mk 0 1 2 4 (some 2) none) (by decide)).2) 1 2
